import Mathlib

/-!
Shallow embedding of `dd_algorithms_lib` (src/src/algorithms.rs, src/src/lib.rs).

Integer model: Rust `i128` values are Lean `Int`s lying in `[-2^127, 2^127)`.
Unchecked Rust arithmetic (`+`, `*`, unary `-`, `Iterator::sum`) wraps on
overflow, as in release builds (two's complement, modelled by `wrap`);
`checked_mul` / `checked_sub` return `none` on overflow; `i128` division by
zero, or `i128::MIN / -1`, aborts execution (modelled by `divP` returning
`none`, surfaced as the `panicked` status).  Rust `u128` values are `Nat`s;
`^^^`, `&&&` and `%` match Rust's `^`, `&` and `%` on unsigned integers, and
`Int.tdiv` matches Rust's signed `/` (truncation toward zero).

Buffers: a Rust `&mut [T]` output buffer is a Lean `List`; every public
operation returns its status together with the final contents of that buffer,
so that partial writes are observable.
-/

namespace DD

set_option maxRecDepth 100000

/-- Least value of `i128`. -/
def i128Min : Int := -(2 ^ 127)

/-- Greatest value of `i128`. -/
def i128Max : Int := 2 ^ 127 - 1

/-- Membership in the value range of `i128`. -/
def inI128 (x : Int) : Prop := i128Min ≤ x ∧ x ≤ i128Max

instance (x : Int) : Decidable (inI128 x) :=
  inferInstanceAs (Decidable (_ ∧ _))

/-- Two's-complement wraparound into the `i128` range, the result of any
unchecked `i128` operation in a release build. -/
def wrap (x : Int) : Int := (x + 2 ^ 127) % 2 ^ 128 - 2 ^ 127

/-- Model of `i128::checked_mul`. -/
def cmul (a b : Int) : Option Int :=
  if inI128 (a * b) then some (a * b) else none

/-- Model of `i128::checked_sub`. -/
def csub (a b : Int) : Option Int :=
  if inI128 (a - b) then some (a - b) else none

/-- Model of `i128` division `a / b`: `none` encodes the division-by-zero and
division-overflow aborts, which Rust raises in every build profile. -/
def divP (a b : Int) : Option Int :=
  if b = 0 ∨ (a = i128Min ∧ b = -1) then none else some (a.tdiv b)

/-- Error enum of `lib.rs`. -/
inductive Error where
  | InvalidInput
  | CalculationFailed
  | NotEnoughParticipants
deriving DecidableEq, Repr

/-- Outcome of one call: normal return, error return, or an aborted
execution (integer-division abort). -/
inductive RunStatus where
  | ok
  | err (e : Error)
  | panicked
deriving DecidableEq, Repr

/-- State of the per-participant share loop of the fair-division functions:
either the loop finished with the written buffer and the accumulated
`sum_others`, or a division abort happened mid-loop. -/
inductive ShareRes where
  | done (buf : List Int) (s : Int)
  | panicked (buf : List Int)
deriving DecidableEq, Repr

/-- Model of `values.iter().sum::<i128>()` (wrapping accumulation). -/
def sumWrap (l : List Int) : Int := l.foldl (fun a v => wrap (a + v)) 0

/-- Model of the weighted sum `values.iter().zip(weights).map(|(v, w)| v * w).sum()`
(both the products and the accumulation wrap). -/
def sumWrapMul (l : List (Int × Int)) : Int :=
  l.foldl (fun a p => wrap (a + wrap (p.1 * p.2))) 0

/-- Scan of `algorithms.rs` lines 54-61 / 156-163: running maximum and its
index, strict comparison `v > max_v`, so the first occurrence of the maximum
wins. -/
def maxScanAux : List Int → Nat → Int → Nat → Int × Nat
  | [], _, maxV, maxI => (maxV, maxI)
  | v :: vs, i, maxV, maxI =>
    if maxV < v then maxScanAux vs (i + 1) v i
    else maxScanAux vs (i + 1) maxV maxI

/-- Maximum-bid search over the whole `values` slice, seeded with
`values[0]`. -/
def maxScan (values : List Int) : Int × Nat :=
  maxScanAux values 0 (values.headD 0) 0

/-- Share-writing loop of `calculate_fair_division_equal_weights`
(lines 75-85): every index other than `maxIdx` receives
`v / n + delta` and is added into `sum_others`; index `maxIdx` is zeroed. -/
def equalShares (n delta : Int) (maxIdx : Nat) :
    List Int → Nat → List Int → Int → ShareRes
  | [], _, buf, s => .done buf s
  | v :: vs, i, buf, s =>
    if i = maxIdx then
      equalShares n delta maxIdx vs (i + 1) (buf.set i 0) s
    else
      match divP v n with
      | none => .panicked buf
      | some q =>
        equalShares n delta maxIdx vs (i + 1) (buf.set i (wrap (q + delta)))
          (wrap (s + wrap (q + delta)))

/-- Share-writing loop of `calculate_fair_division_weighted`
(lines 177-187): every index other than `maxIdx` receives
`(v / n + delta) * weight`. -/
def weightedShares (n delta : Int) (maxIdx : Nat) :
    List (Int × Int) → Nat → List Int → Int → ShareRes
  | [], _, buf, s => .done buf s
  | (v, w) :: rest, i, buf, s =>
    if i = maxIdx then
      weightedShares n delta maxIdx rest (i + 1) (buf.set i 0) s
    else
      match divP v n with
      | none => .panicked buf
      | some q =>
        weightedShares n delta maxIdx rest (i + 1)
          (buf.set i (wrap (wrap (q + delta) * w)))
          (wrap (s + wrap (wrap (q + delta) * w)))

/-- Model of `calculate_fair_division_equal_weights` (algorithms.rs 39-91). -/
def calculate_fair_division_equal_weights (values output : List Int) :
    RunStatus × List Int :=
  if values = [] ∨ output.length ≠ values.length then
    (.err .InvalidInput, output)
  else if values.length < 2 then (.err .NotEnoughParticipants, output)
  else
    let n : Int := (values.length : Int)
    let sumV : Int := sumWrap values
    let mx := maxScan values
    match cmul n mx.1, cmul n n with
    | some nMaxV, some nSq =>
      (match csub nMaxV sumV with
       | some numer =>
         (match divP numer nSq with
          | some delta =>
            (match equalShares n delta mx.2 values 0 output 0 with
             | .done buf s => (.ok, buf.set mx.2 (wrap (-s)))
             | .panicked buf => (.panicked, buf))
          | none => (.panicked, output))
       | none => (.err .CalculationFailed, output))
    | _, _ => (.err .CalculationFailed, output)

/-- Model of `calculate_fair_division_weighted` (algorithms.rs 119-193). -/
def calculate_fair_division_weighted (values weights output : List Int) :
    RunStatus × List Int :=
  if values = [] ∨ weights = [] ∨ values.length ≠ weights.length ∨
      output.length ≠ values.length then
    (.err .InvalidInput, output)
  else if values.length < 2 then (.err .NotEnoughParticipants, output)
  else if weights.any (fun w => decide (w ≤ 0)) then (.err .InvalidInput, output)
  else
    let n : Int := sumWrap weights
    let sumV : Int := sumWrapMul (values.zip weights)
    let mx := maxScan values
    match cmul n mx.1, cmul n n with
    | some nMaxV, some nSq =>
      (match csub nMaxV sumV with
       | some numer =>
         (match divP numer nSq with
          | some delta =>
            (match weightedShares n delta mx.2 (values.zip weights) 0 output 0 with
             | .done buf s => (.ok, buf.set mx.2 (wrap (-s)))
             | .panicked buf => (.panicked, buf))
          | none => (.panicked, output))
       | none => (.err .CalculationFailed, output))
    | _, _ => (.err .CalculationFailed, output)

/-- XOR reduction used by all random-number operations. -/
def xorFold (values : List Nat) : Nat := values.foldl (fun a v => a ^^^ v) 0

/-- Model of `get_one_dd_rand_num` (algorithms.rs 229-254). -/
def get_one_dd_rand_num (values : List Nat) (n : Nat) (out : Nat) :
    RunStatus × Nat :=
  if values = [] ∨ n = 0 then (.err .InvalidInput, out)
  else if values.length ≠ n then (.err .InvalidInput, out)
  else if n &&& (n - 1) ≠ 0 then (.err .InvalidInput, out)
  else (.ok, xorFold values)

/-- Outcome of one selection call: normal return, error return, or
non-termination of one of the unguarded probe loops of
`get_k_dd_rand_num`. -/
inductive SelStatus where
  | ok
  | err (e : Error)
  | diverge
deriving DecidableEq, Repr

/-- Model of the helper `is_whitelisted` (algorithms.rs 5-13). -/
def is_whitelisted : Nat → List Nat → Bool
  | _, [] => false
  | idx, w :: ws => if w = idx then true else is_whitelisted idx ws

/-- Per-slot base value: XOR of `group[i]` over all groups
(`for group in groups { result ^= group[i] }`). -/
def xorAt (groups : List (List Nat)) (i : Nat) : Nat :=
  groups.foldl (fun a g => a ^^^ g.getD i 0) 0

/-- Linear probing from `off`, wrapping modulo `n`.  One unit of fuel is one
inspection of `used`; called with fuel `n` this inspects the `n` consecutive
offsets `off, off+1, …, off+n-1 (mod n)` — exactly the probes the source
performs before its `tries >= n` guard fires (in the guarded loops of
`get_k_dd_rand_num_with_whitelist`), respectively exactly the distinct
offsets the unguarded loops of `get_k_dd_rand_num` ever visit, so `none`
there means the Rust loop never terminates. -/
def probeAux (used : Nat → Bool) (n : Nat) : Nat → Nat → Option Nat
  | _, 0 => none
  | off, fuel + 1 =>
    if used off then probeAux used n ((off + 1) % n) fuel else some off

/-- Marking one index in the `used` flag array. -/
def setUsed (u : Nat → Bool) (i : Nat) : Nat → Bool :=
  fun j => if j = i then true else u j

/-- Result of the slot loops: all slots filled, or a probe that found no
admissible index (guarded loops: `CalculationFailed`; unguarded loops:
non-termination). -/
inductive LoopRes where
  | done (buf : List Nat)
  | stuck (buf : List Nat)
deriving DecidableEq, Repr

/-- Slot loop of the `n <= 1000` branches (algorithms.rs 429-449 and
585-602): one `used` flag array tracks every index that may no longer be
chosen, and slot `i` probes from `base_i mod n`. -/
def slotLoopSmall (groups : List (List Nat)) (n : Nat) :
    Nat → Nat → (Nat → Bool) → List Nat → LoopRes
  | _, 0, _, buf => .done buf
  | i, rem + 1, used, buf =>
    match probeAux used n (xorAt groups i % n) n with
    | none => .stuck buf
    | some off =>
      slotLoopSmall groups n (i + 1) rem (setUsed used off) (buf.set i off)

/-- Slot loop of the `n > 1000` branches (algorithms.rs 452-482 and
628-659): instead of a flag array, slot `i` re-scans the already emitted
entries `output[0..i]`; `ex` is the extra exclusion test applied on top
(`is_whitelisted` in the whitelist variant, nothing in the plain one). -/
def slotLoopBig (groups : List (List Nat)) (n : Nat) (ex : Nat → Bool) :
    Nat → Nat → List Nat → LoopRes
  | _, 0, buf => .done buf
  | i, rem + 1, buf =>
    match probeAux (fun off => (buf.take i).contains off || ex off) n
        (xorAt groups i % n) n with
    | none => .stuck buf
    | some off => slotLoopBig groups n ex (i + 1) rem (buf.set i off)

/-- Input validation shared by both k-of-n selection operations
(algorithms.rs 374-408 = 513-547).  The source performs these checks as a
cascade of early returns; since every one of them produces the same result
`Err(InvalidInput)` with the buffer untouched, the cascade collapses to one
disjunction, listed in source order. -/
def selInvalid (groups : List (List Nat)) (n k : Nat) (output : List Nat) :
    Bool :=
  decide (groups = []) || decide (n = 0) || decide (k = 0) ||
  decide (n > 100000) || decide (k > 1000) ||
  decide (n &&& (n - 1) ≠ 0) ||
  decide (k > n) ||
  decide (groups.length ≠ n) ||
  decide (output.length ≠ k) ||
  groups.any (fun g => decide (g.length ≠ k))

/-- Model of `get_k_dd_rand_num` (algorithms.rs 367-486).  Slot 0 is written
directly from its base value; the remaining slots probe with no cycle guard,
so a probe that inspects all `n` offsets without success loops forever
(`diverge`). -/
def get_k_dd_rand_num (groups : List (List Nat)) (n k : Nat)
    (output : List Nat) : SelStatus × List Nat :=
  if selInvalid groups n k output then (.err .InvalidInput, output)
  else
    let firstOff := xorAt groups 0 % n
    let buf0 := output.set 0 firstOff
    if n ≤ 1000 then
      match slotLoopSmall groups n 1 (k - 1)
          (setUsed (fun _ => false) firstOff) buf0 with
      | .done buf => (.ok, buf)
      | .stuck buf => (.diverge, buf)
    else
      match slotLoopBig groups n (fun _ => false) 1 (k - 1) buf0 with
      | .done buf => (.ok, buf)
      | .stuck buf => (.diverge, buf)

/-- Model of `get_k_dd_rand_num_with_whitelist` (algorithms.rs 505-662).
Validation additionally rejects whitelist entries `>= n`; every slot,
including slot 0, probes with a `tries >= n` guard that turns probe
exhaustion into `Err(CalculationFailed)`. -/
def get_k_dd_rand_num_with_whitelist (groups : List (List Nat)) (n k : Nat)
    (whitelist : List Nat) (output : List Nat) : SelStatus × List Nat :=
  if selInvalid groups n k output ||
      whitelist.any (fun w => decide (w ≥ n)) then
    (.err .InvalidInput, output)
  else if n ≤ 1000 then
    let used0 := whitelist.foldl (fun u w => setUsed u w) (fun _ => false)
    match probeAux used0 n (xorAt groups 0 % n) n with
    | none => (.err .CalculationFailed, output)
    | some off =>
      match slotLoopSmall groups n 1 (k - 1) (setUsed used0 off)
          (output.set 0 off) with
      | .done buf => (.ok, buf)
      | .stuck buf => (.err .CalculationFailed, buf)
  else
    let ex := fun j => is_whitelisted j whitelist
    match probeAux ex n (xorAt groups 0 % n) n with
    | none => (.err .CalculationFailed, output)
    | some off =>
      match slotLoopBig groups n ex 1 (k - 1) (output.set 0 off) with
      | .done buf => (.ok, buf)
      | .stuck buf => (.err .CalculationFailed, buf)

/-- Number of marked indices below `n` (the measure driving probe
termination). -/
def usedCard (used : Nat → Bool) (n : Nat) : Nat :=
  ((Finset.range n).filter (fun j => used j = true)).card

/-! ### Basic facts about the integer model -/

theorem wrap_inI128 (x : Int) : inI128 (wrap x) := by
  unfold wrap inI128 i128Min i128Max
  constructor
  · have h := Int.emod_nonneg (x + 2 ^ 127) (b := 2 ^ 128) (by norm_num)
    linarith
  · have h := Int.emod_lt_of_pos (x + 2 ^ 127) (b := 2 ^ 128) (by norm_num)
    linarith

theorem wrap_eq_self {x : Int} (h : inI128 x) : wrap x = x := by
  obtain ⟨h1, h2⟩ := h
  unfold i128Min at h1
  unfold i128Max at h2
  unfold wrap
  rw [Int.emod_eq_of_lt (by linarith) (by linarith)]
  ring

theorem wrap_wrap (x : Int) : wrap (wrap x) = wrap x :=
  wrap_eq_self (wrap_inI128 x)

theorem add_emod_right_emod (a b M : Int) : (a + b % M) % M = (a + b) % M := by
  conv_lhs => rw [Int.add_emod]
  rw [Int.emod_emod_of_dvd _ dvd_rfl, ← Int.add_emod]

theorem wrap_add_wrap (a b : Int) : wrap (a + wrap b) = wrap (a + b) := by
  unfold wrap
  have h : a + ((b + 2 ^ 127) % 2 ^ 128 - 2 ^ 127) + 2 ^ 127
      = a + (b + 2 ^ 127) % 2 ^ 128 := by ring
  rw [h, add_emod_right_emod, ← add_assoc]

/-! ### Shape of the fair-division results: every error return happens
before the first write to the output buffer -/

theorem equal_weights_shape (values output : List Int) :
    (calculate_fair_division_equal_weights values output).2 = output ∨
    (calculate_fair_division_equal_weights values output).1 = .ok ∨
    (calculate_fair_division_equal_weights values output).1 = .panicked := by
  simp only [calculate_fair_division_equal_weights]
  repeat' split
  all_goals
    first
    | exact Or.inl rfl
    | exact Or.inr (Or.inl rfl)
    | exact Or.inr (Or.inr rfl)

theorem weighted_shape (values weights output : List Int) :
    (calculate_fair_division_weighted values weights output).2 = output ∨
    (calculate_fair_division_weighted values weights output).1 = .ok ∨
    (calculate_fair_division_weighted values weights output).1 = .panicked := by
  simp only [calculate_fair_division_weighted]
  repeat' split
  all_goals
    first
    | exact Or.inl rfl
    | exact Or.inr (Or.inl rfl)
    | exact Or.inr (Or.inr rfl)

/-! ### Characterisation of the maximum-bid scan -/

theorem maxScanAux_spec (vs : List Int) :
    ∀ (i : Nat) (mV : Int) (mI : Nat),
      (maxScanAux vs i mV mI = (mV, mI) ∧
        ∀ t, (h : t < vs.length) → vs[t] ≤ mV) ∨
      (∃ t, ∃ h : t < vs.length,
        maxScanAux vs i mV mI = (vs[t], i + t) ∧ mV < vs[t] ∧
        (∀ u, (hu : u < vs.length) → vs[u] ≤ vs[t]) ∧
        (∀ u, (hu : u < vs.length) → u < t → vs[u] < vs[t])) := by
  induction vs with
  | nil =>
    intro i mV mI
    left
    exact ⟨rfl, fun t h => absurd h (by simp)⟩
  | cons v vs ih =>
    intro i mV mI
    by_cases hv : mV < v
    · simp only [maxScanAux, if_pos hv]
      rcases ih (i + 1) v i with ⟨heq, hle⟩ | ⟨t, ht, heq, hlt, hle, hstrict⟩
      · right
        refine ⟨0, by simp, ?_, hv, ?_, ?_⟩
        · simpa using heq
        · intro u hu
          cases u with
          | zero => simp
          | succ u => simpa using hle u (by simpa using hu)
        · intro u hu hu0
          exact absurd hu0 (Nat.not_lt_zero u)
      · right
        refine ⟨t + 1, by simpa using ht, ?_, lt_trans hv hlt, ?_, ?_⟩
        · simpa [Nat.add_assoc, Nat.add_comm 1 t] using heq
        · intro u hu
          cases u with
          | zero => simpa using le_of_lt hlt
          | succ u => simpa using hle u (by simpa using hu)
        · intro u hu huc
          cases u with
          | zero => simpa using hlt
          | succ u => simpa using hstrict u (by simpa using hu) (by omega)
    · simp only [maxScanAux, if_neg hv]
      rcases ih (i + 1) mV mI with ⟨heq, hle⟩ | ⟨t, ht, heq, hlt, hle, hstrict⟩
      · left
        refine ⟨heq, ?_⟩
        intro u hu
        cases u with
        | zero => simpa using le_of_not_lt hv
        | succ u => simpa using hle u (by simpa using hu)
      · right
        refine ⟨t + 1, by simpa using ht, ?_, hlt, ?_, ?_⟩
        · simpa [Nat.add_assoc, Nat.add_comm 1 t] using heq
        · intro u hu
          cases u with
          | zero => simpa using le_trans (le_of_not_lt hv) (le_of_lt hlt)
          | succ u => simpa using hle u (by simpa using hu)
        · intro u hu huc
          cases u with
          | zero => simpa using lt_of_le_of_lt (le_of_not_lt hv) hlt
          | succ u => simpa using hstrict u (by simpa using hu) (by omega)

/-! ### Unit weights collapse the weighted variant to the equal-weight one -/

theorem foldl_wrap_replicate_one :
    ∀ (m : Nat) (a : Int), 0 ≤ a → a + m ≤ i128Max →
      List.foldl (fun a v => wrap (a + v)) a (List.replicate m 1) = a + m := by
  intro m
  induction m with
  | zero => intro a _ _; simp
  | succ m ih =>
    intro a h0 hle
    push_cast at hle
    rw [List.replicate_succ, List.foldl_cons]
    have hw : wrap (a + 1) = a + 1 := by
      refine wrap_eq_self ⟨?_, ?_⟩
      · unfold i128Min; linarith
      · unfold i128Max at hle ⊢; linarith
    rw [hw, ih (a + 1) (by linarith) (by linarith)]
    push_cast
    ring

theorem sumWrap_replicate_one (m : Nat) (h : (m : Int) ≤ i128Max) :
    sumWrap (List.replicate m 1) = m := by
  unfold sumWrap
  have := foldl_wrap_replicate_one m 0 le_rfl (by simpa using h)
  simpa using this

theorem foldl_sumWrapMul_zip_one :
    ∀ (vs : List Int) (a : Int),
      List.foldl (fun a p => wrap (a + wrap (p.1 * p.2))) a
          (vs.zip (List.replicate vs.length 1))
        = List.foldl (fun a v => wrap (a + v)) a vs := by
  intro vs
  induction vs with
  | nil => intro a; simp
  | cons v vs ih =>
    intro a
    simp only [List.length_cons, List.replicate_succ, List.zip_cons_cons,
      List.foldl_cons]
    rw [mul_one, wrap_add_wrap]
    exact ih _

theorem sumWrapMul_zip_one (vs : List Int) :
    sumWrapMul (vs.zip (List.replicate vs.length 1)) = sumWrap vs :=
  foldl_sumWrapMul_zip_one vs 0

theorem weightedShares_one :
    ∀ (vs : List Int) (n delta : Int) (mi i : Nat) (buf : List Int) (s : Int),
      weightedShares n delta mi (vs.zip (List.replicate vs.length 1)) i buf s
        = equalShares n delta mi vs i buf s := by
  intro vs
  induction vs with
  | nil => intro n delta mi i buf s; rfl
  | cons v vs ih =>
    intro n delta mi i buf s
    simp only [List.length_cons, List.replicate_succ, List.zip_cons_cons]
    simp only [weightedShares, equalShares]
    by_cases hi : i = mi
    · rw [if_pos hi, if_pos hi, ih]
    · rw [if_neg hi, if_neg hi]
      rcases hd : divP v n with _ | q
      · rfl
      · simp only [mul_one, wrap_wrap, ih]

/-! ### Linear probing -/

theorem probeAux_some (used : Nat → Bool) (n : Nat) :
    ∀ (fuel off r : Nat), off < n → probeAux used n off fuel = some r →
      r < n ∧ used r = false := by
  intro fuel
  induction fuel with
  | zero =>
    intro off r _ h
    simp [probeAux] at h
  | succ fuel ih =>
    intro off r hoff h
    have hn0 : 0 < n := Nat.pos_of_ne_zero (by omega)
    simp only [probeAux] at h
    by_cases hu : used off = true
    · rw [if_pos hu] at h
      exact ih ((off + 1) % n) r (Nat.mod_lt _ hn0) h
    · rw [if_neg hu] at h
      injection h with h
      subst h
      exact ⟨hoff, by simpa using hu⟩

theorem probeAux_none (used : Nat → Bool) (n : Nat) :
    ∀ (fuel off : Nat), off < n → probeAux used n off fuel = none →
      ∀ t, t < fuel → used ((off + t) % n) = true := by
  intro fuel
  induction fuel with
  | zero => intro off _ _ t ht; omega
  | succ fuel ih =>
    intro off hoff h t ht
    have hn0 : 0 < n := Nat.pos_of_ne_zero (by omega)
    simp only [probeAux] at h
    by_cases hu : used off = true
    · rw [if_pos hu] at h
      cases t with
      | zero =>
        rw [Nat.add_zero, Nat.mod_eq_of_lt hoff]
        exact hu
      | succ t =>
        have := ih ((off + 1) % n) (Nat.mod_lt _ hn0) h t (by omega)
        rw [Nat.mod_add_mod] at this
        rw [show off + (t + 1) = off + 1 + t from by omega]
        exact this
    · rw [if_neg hu] at h
      cases h

theorem probe_cycle_covers (n off j : Nat) (hoff : off < n) (hj : j < n) :
    ∃ t, t < n ∧ (off + t) % n = j := by
  have hn0 : 0 < n := by omega
  refine ⟨(j + n - off) % n, Nat.mod_lt _ hn0, ?_⟩
  rw [Nat.add_comm off _, Nat.mod_add_mod, Nat.add_comm _ off,
    show off + (j + n - off) = j + n from by omega, Nat.add_mod_right,
    Nat.mod_eq_of_lt hj]

theorem probeAux_none_all (used : Nat → Bool) (n off : Nat) (hoff : off < n)
    (h : probeAux used n off n = none) :
    ∀ j, j < n → used j = true := by
  intro j hj
  obtain ⟨t, ht, hmod⟩ := probe_cycle_covers n off j hoff hj
  rw [← hmod]
  exact probeAux_none used n n off hoff h t ht

theorem probeAux_all_none (used : Nat → Bool) (n : Nat)
    (h : ∀ j, j < n → used j = true) :
    ∀ (fuel off : Nat), off < n → probeAux used n off fuel = none := by
  intro fuel
  induction fuel with
  | zero => intro off _; rfl
  | succ fuel ih =>
    intro off hoff
    have hn0 : 0 < n := by omega
    simp only [probeAux]
    rw [if_pos (h off hoff)]
    exact ih _ (Nat.mod_lt _ hn0)

theorem probeAux_some_of_exists (used : Nat → Bool) (n off : Nat)
    (hoff : off < n) (hfree : ∃ j, j < n ∧ used j = false) :
    ∃ r, probeAux used n off n = some r ∧ r < n ∧ used r = false := by
  rcases hres : probeAux used n off n with _ | r
  · obtain ⟨j, hj, hfr⟩ := hfree
    have := probeAux_none_all used n off hoff hres j hj
    rw [hfr] at this
    cases this
  · obtain ⟨h1, h2⟩ := probeAux_some used n n off r hoff hres
    exact ⟨r, rfl, h1, h2⟩

theorem probeAux_free_start (used : Nat → Bool) (n s : Nat)
    (h : used s = false) (hn : 0 < n) : probeAux used n s n = some s := by
  cases n with
  | zero => omega
  | succ m =>
    simp only [probeAux]
    rw [if_neg (by simp [h])]

/-! ### The marked-index measure -/

theorem usedCard_false (n : Nat) : usedCard (fun _ => false) n = 0 := by
  simp [usedCard]

theorem exists_free_of_usedCard_lt (used : Nat → Bool) (n : Nat)
    (h : usedCard used n < n) : ∃ j, j < n ∧ used j = false := by
  by_contra hc
  push_neg at hc
  have hall : ∀ j ∈ Finset.range n, used j = true := by
    intro j hj
    have := hc j (Finset.mem_range.mp hj)
    simpa using this
  rw [usedCard, Finset.filter_true_of_mem hall, Finset.card_range] at h
  exact lt_irrefl _ h

theorem usedCard_setUsed (used : Nat → Bool) (n off : Nat) (hoff : off < n)
    (hfree : used off = false) :
    usedCard (setUsed used off) n = usedCard used n + 1 := by
  unfold usedCard setUsed
  have hins : (Finset.range n).filter
        (fun j => (if j = off then true else used j) = true)
      = insert off ((Finset.range n).filter (fun j => used j = true)) := by
    ext j
    by_cases hj : j = off
    · subst hj
      simp [hoff]
    · simp [hj]
  rw [hins, Finset.card_insert_of_not_mem (by simp [hfree])]

theorem usedCard_mark_mem (used : Nat → Bool) (off : Nat) :
    ∀ x, used x = true → setUsed used off x = true := by
  intro x hx
  unfold setUsed
  by_cases hxo : x = off <;> simp [hxo, hx]

/-! ### List plumbing for the output buffer -/

theorem take_set_succ {α : Type} (l : List α) (i : Nat) (a : α)
    (h : i < l.length) : (l.set i a).take (i + 1) = l.take i ++ [a] := by
  rw [List.take_succ]
  have h1 : (l.set i a).take i = l.take i := by
    apply List.ext_getElem?
    intro j
    rw [List.getElem?_take, List.getElem?_take]
    by_cases hj : j < i
    · rw [if_pos hj, if_pos hj, List.getElem?_set_ne (by omega)]
    · rw [if_neg hj, if_neg hj]
  rw [h1, List.getElem?_set_self (by simpa using h)]
  rfl

theorem is_whitelisted_iff (x : Nat) (wl : List Nat) :
    is_whitelisted x wl = true ↔ x ∈ wl := by
  induction wl with
  | nil => simp [is_whitelisted]
  | cons w ws ih =>
    simp only [is_whitelisted]
    by_cases hw : w = x
    · simp [hw]
    · rw [if_neg hw, ih]
      constructor
      · intro hx
        exact List.mem_cons_of_mem _ hx
      · intro hx
        rcases List.mem_cons.mp hx with hx | hx
        · exact absurd hx.symm hw
        · exact hx

theorem foldl_setUsed_eq :
    ∀ (wl : List Nat) (u : Nat → Bool) (x : Nat),
      (wl.foldl (fun u w => setUsed u w) u) x = true ↔ x ∈ wl ∨ u x = true := by
  intro wl
  induction wl with
  | nil => simp
  | cons w ws ih =>
    intro u x
    rw [List.foldl_cons, ih]
    unfold setUsed
    by_cases hx : x = w
    · simp [hx]
    · simp [hx, List.mem_cons]

/-! ### The `n <= 1000` slot loop: postcondition, termination, failure -/

theorem slotLoopSmall_done_spec (groups : List (List Nat)) (n : Nat)
    (base : Nat → Bool) :
    ∀ (rem i : Nat) (used : Nat → Bool) (buf buf' : List Nat),
      i + rem = buf.length →
      (∀ x, base x = true → used x = true) →
      (∀ x ∈ buf.take i, x < n ∧ used x = true ∧ base x = false) →
      (buf.take i).Nodup →
      slotLoopSmall groups n i rem used buf = .done buf' →
      buf'.length = buf.length ∧ buf'.Nodup ∧
        ∀ x ∈ buf', x < n ∧ base x = false := by
  intro rem
  induction rem with
  | zero =>
    intro i used buf buf' hlen hbase hprev hnd hrun
    have hbuf : buf = buf' := by simpa [slotLoopSmall] using hrun
    subst hbuf
    have hall : buf.take i = buf := List.take_of_length_le (by omega)
    rw [hall] at hprev hnd
    exact ⟨rfl, hnd, fun x hx => ⟨(hprev x hx).1, (hprev x hx).2.2⟩⟩
  | succ rem ih =>
    intro i used buf buf' hlen hbase hprev hnd hrun
    simp only [slotLoopSmall] at hrun
    rcases hp : probeAux used n (xorAt groups i % n) n with _ | off
    · rw [hp] at hrun
      simp at hrun
    · rw [hp] at hrun
      have hn0 : 0 < n := by
        rcases Nat.eq_zero_or_pos n with h0 | h0
        · subst h0; simp [probeAux] at hp
        · exact h0
      obtain ⟨hoffn, hofffree⟩ :=
        probeAux_some used n n _ off (Nat.mod_lt _ hn0) hp
      have hilen : i < buf.length := by omega
      have htake := take_set_succ buf i off hilen
      have hprev2 : ∀ x ∈ (buf.set i off).take (i + 1),
          x < n ∧ setUsed used off x = true ∧ base x = false := by
        rw [htake]
        intro x hx
        rcases List.mem_append.mp hx with hx | hx
        · obtain ⟨h1, h2, h3⟩ := hprev x hx
          exact ⟨h1, usedCard_mark_mem used off x h2, h3⟩
        · have hxo : x = off := by simpa using hx
          subst hxo
          refine ⟨hoffn, by simp [setUsed], ?_⟩
          by_contra hb
          have hb' : base x = true := by simpa using hb
          have := hbase x hb'
          rw [hofffree] at this
          cases this
      have hnd2 : ((buf.set i off).take (i + 1)).Nodup := by
        rw [htake, List.nodup_append]
        refine ⟨hnd, by simp, ?_⟩
        intro a ha hb
        have hao : a = off := by simpa using hb
        subst hao
        have := (hprev a ha).2.1
        rw [hofffree] at this
        cases this
      have hres := ih (i + 1) (setUsed used off) (buf.set i off) buf'
        (by rw [List.length_set]; omega)
        (fun x hx => usedCard_mark_mem used off x (hbase x hx)) hprev2 hnd2 hrun
      rw [List.length_set] at hres
      exact hres

theorem slotLoopSmall_done_of_card (groups : List (List Nat)) (n : Nat) :
    ∀ (rem i : Nat) (used : Nat → Bool) (buf : List Nat),
      usedCard used n + rem ≤ n →
      ∃ buf', slotLoopSmall groups n i rem used buf = .done buf' := by
  intro rem
  induction rem with
  | zero => intro i used buf _; exact ⟨buf, rfl⟩
  | succ rem ih =>
    intro i used buf h
    have hn0 : 0 < n := by omega
    obtain ⟨j, hj, hjf⟩ := exists_free_of_usedCard_lt used n (by omega)
    obtain ⟨r, hres, hrn, hrfree⟩ := probeAux_some_of_exists used n
      (xorAt groups i % n) (Nat.mod_lt _ hn0) ⟨j, hj, hjf⟩
    obtain ⟨buf', hdone⟩ := ih (i + 1) (setUsed used r) (buf.set i r)
      (by rw [usedCard_setUsed used n r hrn hrfree]; omega)
    refine ⟨buf', ?_⟩
    simp only [slotLoopSmall]
    rw [hres]
    exact hdone

theorem slotLoopSmall_stuck_spec (groups : List (List Nat)) (n : Nat)
    (base : Nat → Bool) :
    ∀ (rem i : Nat) (used : Nat → Bool) (buf buf' : List Nat),
      i + rem ≤ buf.length →
      (∀ x, used x = true → base x = true ∨ x ∈ buf.take i) →
      slotLoopSmall groups n i rem used buf = .stuck buf' →
      ∃ iF, i ≤ iF ∧ iF < i + rem ∧
        ∀ j, j < n → base j = true ∨ j ∈ buf'.take iF := by
  intro rem
  induction rem with
  | zero =>
    intro i used buf buf' _ _ hrun
    simp [slotLoopSmall] at hrun
  | succ rem ih =>
    intro i used buf buf' hlen hinv hrun
    simp only [slotLoopSmall] at hrun
    rcases hp : probeAux used n (xorAt groups i % n) n with _ | off
    · rw [hp] at hrun
      have hbuf : buf = buf' := by simpa using hrun
      subst hbuf
      rcases Nat.eq_zero_or_pos n with h0 | hn0
      · exact ⟨i, le_rfl, by omega, fun j hj => by omega⟩
      · refine ⟨i, le_rfl, by omega, ?_⟩
        intro j hj
        exact hinv j (probeAux_none_all used n _ (Nat.mod_lt _ hn0) hp j hj)
    · rw [hp] at hrun
      have hn0 : 0 < n := by
        rcases Nat.eq_zero_or_pos n with h0 | h0
        · subst h0; simp [probeAux] at hp
        · exact h0
      have hilen : i < buf.length := by omega
      have htake := take_set_succ buf i off hilen
      have hinv2 : ∀ x, setUsed used off x = true →
          base x = true ∨ x ∈ (buf.set i off).take (i + 1) := by
        intro x hx
        rw [htake]
        unfold setUsed at hx
        by_cases hxo : x = off
        · right
          rw [List.mem_append]
          right
          simp [hxo]
        · rw [if_neg hxo] at hx
          rcases hinv x hx with hb | hm
          · exact Or.inl hb
          · right
            rw [List.mem_append]
            exact Or.inl hm
      obtain ⟨iF, h1, h2, h3⟩ := ih (i + 1) (setUsed used off) (buf.set i off)
        buf' (by rw [List.length_set]; omega) hinv2 hrun
      exact ⟨iF, by omega, by omega, h3⟩

/-! ### The `n > 1000` slot loop: postcondition, termination, failure -/

theorem slotLoopBig_done_spec (groups : List (List Nat)) (n : Nat)
    (ex : Nat → Bool) :
    ∀ (rem i : Nat) (buf buf' : List Nat),
      i + rem = buf.length →
      (∀ x ∈ buf.take i, x < n ∧ ex x = false) →
      (buf.take i).Nodup →
      slotLoopBig groups n ex i rem buf = .done buf' →
      buf'.length = buf.length ∧ buf'.Nodup ∧
        ∀ x ∈ buf', x < n ∧ ex x = false := by
  intro rem
  induction rem with
  | zero =>
    intro i buf buf' hlen hprev hnd hrun
    have hbuf : buf = buf' := by simpa [slotLoopBig] using hrun
    subst hbuf
    have hall : buf.take i = buf := List.take_of_length_le (by omega)
    rw [hall] at hprev hnd
    exact ⟨rfl, hnd, hprev⟩
  | succ rem ih =>
    intro i buf buf' hlen hprev hnd hrun
    simp only [slotLoopBig] at hrun
    rcases hp : probeAux (fun off => (buf.take i).contains off || ex off) n
        (xorAt groups i % n) n with _ | off
    · rw [hp] at hrun
      simp at hrun
    · rw [hp] at hrun
      have hn0 : 0 < n := by
        rcases Nat.eq_zero_or_pos n with h0 | h0
        · subst h0; simp [probeAux] at hp
        · exact h0
      obtain ⟨hoffn, hofffree⟩ :=
        probeAux_some _ n n _ off (Nat.mod_lt _ hn0) hp
      have hpair : (buf.take i).contains off = false ∧ ex off = false := by
        simpa using hofffree
      have hnotmem : off ∉ buf.take i := by
        intro hmem
        have hmem' : List.elem off (buf.take i) = true := List.elem_iff.mpr hmem
        have hc : List.elem off (buf.take i) = false := hpair.1
        rw [hmem'] at hc
        cases hc
      have hilen : i < buf.length := by omega
      have htake := take_set_succ buf i off hilen
      have hprev2 : ∀ x ∈ (buf.set i off).take (i + 1),
          x < n ∧ ex x = false := by
        rw [htake]
        intro x hx
        rcases List.mem_append.mp hx with hx | hx
        · exact hprev x hx
        · have hxo : x = off := by simpa using hx
          subst hxo
          exact ⟨hoffn, hpair.2⟩
      have hnd2 : ((buf.set i off).take (i + 1)).Nodup := by
        rw [htake, List.nodup_append]
        refine ⟨hnd, by simp, ?_⟩
        intro a ha hb
        have hao : a = off := by simpa using hb
        subst hao
        exact hnotmem ha
      have hres := ih (i + 1) (buf.set i off) buf'
        (by rw [List.length_set]; omega) hprev2 hnd2 hrun
      rw [List.length_set] at hres
      exact hres

theorem slotLoopBig_done_of_card (groups : List (List Nat)) (n : Nat)
    (ex : Nat → Bool) :
    ∀ (rem i : Nat) (buf : List Nat),
      i + rem ≤ buf.length →
      usedCard ex n + buf.length ≤ n →
      ∃ buf', slotLoopBig groups n ex i rem buf = .done buf' := by
  intro rem
  induction rem with
  | zero => intro i buf _ _; exact ⟨buf, rfl⟩
  | succ rem ih =>
    intro i buf hlen hcard
    have hn0 : 0 < n := by omega
    have hcardle : ((Finset.range n).filter
        (fun j => ((buf.take i).contains j || ex j) = true)).card < n := by
      have hsub : (Finset.range n).filter
            (fun j => ((buf.take i).contains j || ex j) = true)
          ⊆ (buf.take i).toFinset ∪
            ((Finset.range n).filter (fun j => ex j = true)) := by
        intro j hj
        rw [Finset.mem_filter] at hj
        obtain ⟨hjr, hjp⟩ := hj
        rcases (by simpa using hjp :
            (buf.take i).contains j = true ∨ ex j = true) with hc | hc
        · rw [Finset.mem_union]
          left
          rw [List.mem_toFinset]
          exact List.elem_iff.mp hc
        · rw [Finset.mem_union]
          right
          rw [Finset.mem_filter]
          exact ⟨hjr, hc⟩
      have h1 := Finset.card_le_card hsub
      have h2 := Finset.card_union_le (buf.take i).toFinset
        ((Finset.range n).filter (fun j => ex j = true))
      have h3 := List.toFinset_card_le (buf.take i)
      have h4 : (buf.take i).length ≤ i := by
        rw [List.length_take]
        omega
      have h5 : ((Finset.range n).filter (fun j => ex j = true)).card
          = usedCard ex n := rfl
      omega
    have hfree : ∃ j, j < n ∧ ((buf.take i).contains j || ex j) = false := by
      by_contra hc
      push_neg at hc
      have hall : ∀ j ∈ Finset.range n,
          ((buf.take i).contains j || ex j) = true := by
        intro j hj
        exact Bool.ne_false_iff.mp (hc j (Finset.mem_range.mp hj))
      rw [Finset.filter_true_of_mem hall, Finset.card_range] at hcardle
      exact lt_irrefl _ hcardle
    obtain ⟨r, hres, hrn, _⟩ := probeAux_some_of_exists _ n
      (xorAt groups i % n) (Nat.mod_lt _ hn0) hfree
    obtain ⟨buf', hdone⟩ := ih (i + 1) (buf.set i r)
      (by rw [List.length_set]; omega) (by rw [List.length_set]; exact hcard)
    refine ⟨buf', ?_⟩
    simp only [slotLoopBig]
    rw [hres]
    exact hdone

theorem slotLoopBig_stuck_spec (groups : List (List Nat)) (n : Nat)
    (ex : Nat → Bool) :
    ∀ (rem i : Nat) (buf buf' : List Nat),
      slotLoopBig groups n ex i rem buf = .stuck buf' →
      ∃ iF, i ≤ iF ∧ iF < i + rem ∧
        ∀ j, j < n → ex j = true ∨ j ∈ buf'.take iF := by
  intro rem
  induction rem with
  | zero =>
    intro i buf buf' hrun
    simp [slotLoopBig] at hrun
  | succ rem ih =>
    intro i buf buf' hrun
    simp only [slotLoopBig] at hrun
    rcases hp : probeAux (fun off => (buf.take i).contains off || ex off) n
        (xorAt groups i % n) n with _ | off
    · rw [hp] at hrun
      have hbuf : buf = buf' := by simpa using hrun
      subst hbuf
      rcases Nat.eq_zero_or_pos n with h0 | hn0
      · exact ⟨i, le_rfl, by omega, fun j hj => by omega⟩
      · refine ⟨i, le_rfl, by omega, ?_⟩
        intro j hj
        have hor := probeAux_none_all _ n _ (Nat.mod_lt _ hn0) hp j hj
        cases hcj : (buf.take i).contains j with
        | false =>
          rw [hcj] at hor
          simp at hor
          exact Or.inl hor
        | true => exact Or.inr (List.elem_iff.mp hcj)
    · rw [hp] at hrun
      obtain ⟨iF, h1, h2, h3⟩ := ih (i + 1) (buf.set i off) buf' hrun
      exact ⟨iF, by omega, by omega, h3⟩

theorem take_one_set_zero (l : List Nat) (f : Nat) (h : 0 < l.length) :
    (l.set 0 f).take 1 = [f] := by
  have := take_set_succ l 0 f h
  simpa using this

/-! ### Facts provided by a passed validation -/

theorem selValid_facts (groups : List (List Nat)) (n k : Nat)
    (output : List Nat) (h : selInvalid groups n k output = false) :
    groups ≠ [] ∧ 0 < n ∧ 0 < k ∧ n ≤ 100000 ∧ k ≤ 1000 ∧
      (n &&& (n - 1)) = 0 ∧ k ≤ n ∧ groups.length = n ∧ output.length = k ∧
      ∀ g ∈ groups, g.length = k := by
  unfold selInvalid at h
  simp only [Bool.or_eq_false_iff] at h
  obtain ⟨⟨⟨⟨⟨⟨⟨⟨⟨h1, h2⟩, h3⟩, h4⟩, h5⟩, h6⟩, h7⟩, h8⟩, h9⟩, h10⟩ := h
  rw [decide_eq_false_iff_not] at h1 h2 h3 h4 h5 h6 h7 h8 h9
  refine ⟨h1, by omega, by omega, by omega, by omega, not_not.mp h6,
    by omega, not_not.mp h8, not_not.mp h9, ?_⟩
  intro g hg
  have := List.any_eq_false.mp h10 g hg
  simpa using this

/-! ### Claims C1, C2, C5, C6, C7, C8 -/

/-- Claim C1: the zero-sum guarantee fails on the weighted variant.  At
`values = [1, 1, -1]`, `weights = [3, i128::MAX, i128::MAX]` — a valid input:
three participants, all weights strictly positive, matching lengths — the
weight total wraps to `1`, the shares of participants 1 and 2 wrap, their
accumulation overflows, and `calculate_fair_division_weighted` returns `Ok`
with an output buffer whose entries sum to `-2^128`, not `0`. -/
theorem c1_zero_sum_violation :
    (∀ w ∈ ([3, 2 ^ 127 - 1, 2 ^ 127 - 1] : List Int), 0 < w) ∧
    (calculate_fair_division_weighted [1, 1, -1]
        [3, 2 ^ 127 - 1, 2 ^ 127 - 1] [0, 0, 0]).1 = .ok ∧
    ((calculate_fair_division_weighted [1, 1, -1]
        [3, 2 ^ 127 - 1, 2 ^ 127 - 1] [0, 0, 0]).2).sum = -(2 ^ 128) := by
  decide

/-- Claim C2 (counterexample): not every intermediate overflow is detected.
At `values = [1, i128::MIN]`, `weights = [1, 2]` the weighted product
`values[1] * weights[1] = -2^128` leaves the `i128` range, yet
`calculate_fair_division_weighted` silently wraps it (to `0`) and returns
`Ok` instead of `Err(CalculationFailed)`. -/
theorem c2_overflow_not_reported :
    ¬ inI128 (([1, -(2 ^ 127)] : List Int).getD 1 0 *
        ([1, 2] : List Int).getD 1 0) ∧
    (calculate_fair_division_weighted [1, -(2 ^ 127)] [1, 2] [0, 0]).1
      = .ok := by
  decide

/-- Claim C2 (amended): overflow is detected and reported as
`Err(CalculationFailed)` exactly at the three checked sites of the delta
computation — `n * maxV`, `n * n` and the numerator subtraction
`n * maxV - sumV` — in both fair-division operations (the remaining
arithmetic wraps silently, as the counterexample shows). -/
theorem c2_checked_sites_only (values weights output : List Int) :
    (values ≠ [] → output.length = values.length → 2 ≤ values.length →
      (¬ inI128 ((values.length : Int) * (maxScan values).1) ∨
       ¬ inI128 ((values.length : Int) * (values.length : Int)) ∨
       ¬ inI128 ((values.length : Int) * (maxScan values).1 - sumWrap values)) →
      calculate_fair_division_equal_weights values output
        = (.err .CalculationFailed, output)) ∧
    (values ≠ [] → weights ≠ [] → values.length = weights.length →
      output.length = values.length → 2 ≤ values.length →
      (∀ w ∈ weights, 0 < w) →
      (¬ inI128 (sumWrap weights * (maxScan values).1) ∨
       ¬ inI128 (sumWrap weights * sumWrap weights) ∨
       ¬ inI128 (sumWrap weights * (maxScan values).1 -
          sumWrapMul (values.zip weights))) →
      calculate_fair_division_weighted values weights output
        = (.err .CalculationFailed, output)) := by
  constructor
  · intro hne hout h2 hov
    simp only [calculate_fair_division_equal_weights]
    rw [if_neg (show ¬(values = [] ∨ output.length ≠ values.length) from by
          simp [hne, hout]),
      if_neg (show ¬(values.length < 2) from by omega)]
    by_cases hA : inI128 ((values.length : Int) * (maxScan values).1) <;>
      by_cases hB : inI128 ((values.length : Int) * (values.length : Int))
    · have hC : ¬ inI128 ((values.length : Int) * (maxScan values).1
          - sumWrap values) := by tauto
      simp [cmul, csub, hA, hB, hC]
    · simp [cmul, hA, hB]
    · simp [cmul, hA, hB]
    · simp [cmul, hA, hB]
  · intro hne hwne hvw hout h2 hw hov
    simp only [calculate_fair_division_weighted]
    rw [if_neg (show ¬(values = [] ∨ weights = [] ∨
          values.length ≠ weights.length ∨ output.length ≠ values.length) from
          by simp [hne, hwne, hvw, hout]),
      if_neg (show ¬(values.length < 2) from by omega),
      if_neg (show ¬((weights.any fun w => decide (w ≤ 0)) = true) from by
        simp only [List.any_eq_true, decide_eq_true_eq, not_exists]
        intro w hmem
        exact absurd hmem.2 (not_le.mpr (hw w hmem.1)))]
    by_cases hA : inI128 (sumWrap weights * (maxScan values).1) <;>
      by_cases hB : inI128 (sumWrap weights * sumWrap weights)
    · have hC : ¬ inI128 (sumWrap weights * (maxScan values).1
          - sumWrapMul (values.zip weights)) := by tauto
      simp [cmul, csub, hA, hB, hC]
    · simp [cmul, hA, hB]
    · simp [cmul, hA, hB]
    · simp [cmul, hA, hB]

/-- Witness for C2 (amended): two participants both bidding `i128::MAX`
make `n * maxV = 2^128 - 2` overflow, and the equal-weight function reports
`CalculationFailed` with the buffer untouched. -/
theorem c2_checked_sites_only_witness :
    calculate_fair_division_equal_weights [2 ^ 127 - 1, 2 ^ 127 - 1] [5, 6]
      = (.err .CalculationFailed, [5, 6]) :=
  (c2_checked_sites_only [2 ^ 127 - 1, 2 ^ 127 - 1] [] [5, 6]).1
    (by decide) (by decide) (by decide) (Or.inl (by decide))

/-- Claim C5 (counterexample): with `values = [10, 20, 30]` and constant
weights `c = 2`, the weighted allocation is `[4, 8, -12]`, which is not the
equal-weight allocation `[6, 9, -15]` scaled by `2` — the claimed scaling
law fails even on the spec's own example fixture. -/
theorem c5_scaling_law_fails :
    (calculate_fair_division_weighted [10, 20, 30] [2, 2, 2] [0, 0, 0]).1
      = .ok ∧
    (calculate_fair_division_equal_weights [10, 20, 30] [0, 0, 0]).1 = .ok ∧
    (calculate_fair_division_weighted [10, 20, 30] [2, 2, 2] [0, 0, 0]).2
      ≠ ((calculate_fair_division_equal_weights [10, 20, 30] [0, 0, 0]).2).map
          (fun x => 2 * x) := by
  decide

/-- Claim C5 (amended): the consistency law holds for the constant `c = 1`:
with all weights equal to `1` the weighted operation returns exactly the
equal-weight result (same status, same buffer) on every input.  For any
constant `c > 1` it fails, as the counterexample shows: in exact arithmetic
constant-weight allocation reproduces the unscaled equal-weight allocation,
and truncation makes even that fail. -/
theorem c5_unit_weights_agree (values output : List Int)
    (h : values.length < 2 ^ 64) :
    calculate_fair_division_weighted values (List.replicate values.length 1)
        output
      = calculate_fair_division_equal_weights values output := by
  have hbound : ((values.length : Int)) ≤ i128Max := by
    unfold i128Max
    have : ((values.length : Int)) < 2 ^ 64 := by exact_mod_cast h
    linarith
  simp only [calculate_fair_division_weighted,
    calculate_fair_division_equal_weights]
  by_cases hemp : values = []
  · subst hemp; simp
  by_cases hout : output.length = values.length
  · have hlen0 : values.length ≠ 0 := fun hc => hemp (List.length_eq_zero.mp hc)
    have hrep : List.replicate values.length (1 : Int) ≠ [] := by
      intro hc
      exact hlen0 (by simpa using congrArg List.length hc)
    rw [if_neg (show ¬(values = [] ∨
          List.replicate values.length (1 : Int) = [] ∨
          values.length ≠ (List.replicate values.length (1 : Int)).length ∨
          output.length ≠ values.length) from by
        simp [hemp, hrep, hout]),
      if_neg (show ¬(values = [] ∨ output.length ≠ values.length) from by
        simp [hemp, hout])]
    by_cases h2 : values.length < 2
    · rw [if_pos h2, if_pos h2]
    rw [if_neg h2, if_neg h2,
      if_neg (show ¬(((List.replicate values.length (1 : Int)).any
          fun w => decide (w ≤ 0)) = true) from by
        simp only [List.any_eq_true, decide_eq_true_eq, not_exists]
        intro w hmem
        rw [List.eq_of_mem_replicate hmem.1] at hmem
        omega)]
    rw [sumWrap_replicate_one values.length hbound, sumWrapMul_zip_one]
    simp only [weightedShares_one]
  · rw [if_pos (show (values = [] ∨
          List.replicate values.length (1 : Int) = [] ∨
          values.length ≠ (List.replicate values.length (1 : Int)).length ∨
          output.length ≠ values.length) from Or.inr (Or.inr (Or.inr hout))),
      if_pos (show (values = [] ∨ output.length ≠ values.length) from
        Or.inr hout)]

/-- Witness for C5 (amended): the unit-weight run on `[10, 20, 30]` equals
the equal-weight run. -/
theorem c5_unit_weights_agree_witness :
    calculate_fair_division_weighted [10, 20, 30] [1, 1, 1] [0, 0, 0]
      = calculate_fair_division_equal_weights [10, 20, 30] [0, 0, 0] :=
  c5_unit_weights_agree [10, 20, 30] [0, 0, 0] (by decide)

/-- Claim C6: on every valid input (`values` of length `n`, non-empty, `n` a
power of two) `get_one_dd_rand_num` succeeds and writes the XOR of all
values, and the result is order-independent: every permutation of `values`
yields the identical value. -/
theorem c6_xor_order_independent (values values' : List Nat) (n out out' : Nat)
    (hlen : values.length = n) (hne : values ≠ []) (hpow : ∃ m, n = 2 ^ m)
    (hperm : values.Perm values') :
    get_one_dd_rand_num values n out = (.ok, xorFold values) ∧
    get_one_dd_rand_num values' n out' = (.ok, xorFold values) := by
  obtain ⟨m, rfl⟩ := hpow
  have hn0 : (2 : Nat) ^ m ≠ 0 := pow_ne_zero m (by norm_num)
  have hchk : (2 ^ m) &&& (2 ^ m - 1) = 0 := by
    rw [Nat.and_pow_two_sub_one_eq_mod]
    exact Nat.mod_self _
  have hne' : values' ≠ [] := by
    intro hc
    subst hc
    exact hne hperm.eq_nil
  have hlen' : values'.length = 2 ^ m := by rw [← hperm.length_eq, hlen]
  haveI : RightCommutative (fun (a v : Nat) => a ^^^ v) :=
    ⟨fun b a c => by
      simp only [Nat.xor_assoc]
      rw [Nat.xor_comm a c]⟩
  have hfold : xorFold values' = xorFold values := (hperm.foldl_eq 0).symm
  constructor
  · unfold get_one_dd_rand_num
    rw [if_neg (show ¬(values = [] ∨ 2 ^ m = 0) from by simp [hne, hn0]),
      if_neg (show ¬(values.length ≠ 2 ^ m) from by simp [hlen]),
      if_neg (show ¬((2 ^ m) &&& (2 ^ m - 1) ≠ 0) from by simp [hchk])]
  · unfold get_one_dd_rand_num
    rw [if_neg (show ¬(values' = [] ∨ 2 ^ m = 0) from by simp [hne', hn0]),
      if_neg (show ¬(values'.length ≠ 2 ^ m) from by simp [hlen']),
      if_neg (show ¬((2 ^ m) &&& (2 ^ m - 1) ≠ 0) from by simp [hchk]), hfold]

/-- Witness for C6: the repository's own fixture `[100, 200, 300, 400]`
with `n = 4` yields `16 = 100 ^ 200 ^ 300 ^ 400`, and so does its
reversal. -/
theorem c6_xor_order_independent_witness :
    get_one_dd_rand_num [100, 200, 300, 400] 4 0 = (.ok, 16) ∧
    get_one_dd_rand_num [400, 300, 200, 100] 4 9 = (.ok, 16) := by
  have h := c6_xor_order_independent [100, 200, 300, 400] [400, 300, 200, 100]
    4 0 9 (by decide) (by decide) ⟨2, by norm_num⟩ (by decide)
  exact ⟨h.1, h.2⟩

/-- Claim C7: whenever either fair-division operation returns an error
(`InvalidInput`, `NotEnoughParticipants` or `CalculationFailed`), the output
buffer is returned unchanged — every error return happens before the first
buffer write. -/
theorem c7_no_partial_writes_on_error (values weights output : List Int)
    (e1 e2 : Error) :
    ((calculate_fair_division_equal_weights values output).1 = .err e1 →
      (calculate_fair_division_equal_weights values output).2 = output) ∧
    ((calculate_fair_division_weighted values weights output).1 = .err e2 →
      (calculate_fair_division_weighted values weights output).2 = output) := by
  constructor
  · intro h
    rcases equal_weights_shape values output with h2 | h2 | h2
    · exact h2
    · rw [h] at h2; simp at h2
    · rw [h] at h2; simp at h2
  · intro h
    rcases weighted_shape values weights output with h2 | h2 | h2
    · exact h2
    · rw [h] at h2; simp at h2
    · rw [h] at h2; simp at h2

/-- Witness for C7: a single-participant call fails with
`NotEnoughParticipants` and leaves the buffer `[3]` unchanged; a
zero-weight call fails with `InvalidInput` and leaves `[4, 5]` unchanged. -/
theorem c7_no_partial_writes_on_error_witness :
    (calculate_fair_division_equal_weights [7] [3]).2 = [3] ∧
    (calculate_fair_division_weighted [7, 8] [0, 1] [4, 5]).2 = [4, 5] :=
  ⟨(c7_no_partial_writes_on_error [7] [0, 1] [3]
      .NotEnoughParticipants .InvalidInput).1 (by decide),
   (c7_no_partial_writes_on_error [7, 8] [0, 1] [4, 5]
      .NotEnoughParticipants .InvalidInput).2 (by decide)⟩

/-- Claim C8: the index returned by the maximum-bid scan — the index at
which both fair-division operations place the negated sum of the other
shares, computed from `values` only, so weights can never influence it — is
the first index, in scan order, at which the maximum of `values` occurs:
it is in range, it attains the maximum, every position is bounded by it,
and every earlier position is strictly below it (first occurrence wins on
ties). -/
theorem c8_first_max_absorbs (values : List Int) (hne : values ≠ []) :
    (maxScan values).2 < values.length ∧
    values.getD (maxScan values).2 0 = (maxScan values).1 ∧
    (∀ j, j < values.length → values.getD j 0 ≤ (maxScan values).1) ∧
    (∀ j, j < (maxScan values).2 → values.getD j 0 < (maxScan values).1) := by
  obtain ⟨v, vs, rfl⟩ := List.exists_cons_of_ne_nil hne
  have hgetD : ∀ (l : List Int) (j : Nat) (hj : j < l.length),
      l.getD j 0 = l[j] := by
    intro l j hj
    rw [List.getD_eq_getElem?_getD, List.getElem?_eq_getElem hj]
    rfl
  have hscan : maxScan (v :: vs) = maxScanAux (v :: vs) 0 v 0 := rfl
  rcases maxScanAux_spec (v :: vs) 0 v 0 with ⟨heq, hle⟩ |
    ⟨t, ht, heq, hlt, hle, hstrict⟩
  · rw [hscan, heq]
    refine ⟨by simp, by simp, ?_, ?_⟩
    · intro j hj
      rw [hgetD _ j hj]
      exact hle j hj
    · intro j hj
      exact absurd hj (Nat.not_lt_zero j)
  · rw [hscan, heq]
    refine ⟨by simpa using ht, ?_, ?_, ?_⟩
    · simp only [Nat.zero_add]
      rw [hgetD _ t ht]
    · intro j hj
      rw [hgetD _ j hj]
      exact hle j hj
    · intro j hj
      simp only [Nat.zero_add] at hj
      rw [hgetD _ j (lt_trans hj ht)]
      exact hstrict j (lt_trans hj ht) hj

/-- Witness for C8: on `[1, 3, 3, 2]` the scan selects index `1`, the first
of the two tied maxima `3`. -/
theorem c8_first_max_absorbs_witness :
    (maxScan [1, 3, 3, 2]).2 < ([1, 3, 3, 2] : List Int).length ∧
    ([1, 3, 3, 2] : List Int).getD (maxScan [1, 3, 3, 2]).2 0
      = (maxScan [1, 3, 3, 2]).1 ∧
    (∀ j, j < ([1, 3, 3, 2] : List Int).length →
      ([1, 3, 3, 2] : List Int).getD j 0 ≤ (maxScan [1, 3, 3, 2]).1) ∧
    (∀ j, j < (maxScan [1, 3, 3, 2]).2 →
      ([1, 3, 3, 2] : List Int).getD j 0 < (maxScan [1, 3, 3, 2]).1) :=
  c8_first_max_absorbs [1, 3, 3, 2] (by decide)

/-- Claim C9: on every input, `get_k_dd_rand_num` either rejects with
`InvalidInput` (leaving the buffer untouched) or returns `Ok` — in
particular its unguarded probe loops always terminate (the status `diverge`,
which models their non-termination, never occurs) and `CalculationFailed` is
never returned: after validation `k <= n` holds, so at every slot at most
`k - 1 < n` indices are marked and a free index is found within `n`
probes. -/
theorem c9_validated_inputs_succeed (groups : List (List Nat)) (n k : Nat)
    (output : List Nat) :
    (selInvalid groups n k output = true ∧
      get_k_dd_rand_num groups n k output = (.err .InvalidInput, output)) ∨
    (selInvalid groups n k output = false ∧
      (get_k_dd_rand_num groups n k output).1 = .ok) := by
  cases hval : selInvalid groups n k output with
  | true =>
    left
    refine ⟨rfl, ?_⟩
    simp only [get_k_dd_rand_num]
    rw [if_pos (by rw [hval])]
  | false =>
    right
    refine ⟨rfl, ?_⟩
    obtain ⟨hg, hn, hk, hnb, hkb, hpow, hkn, hglen, holen, hglens⟩ :=
      selValid_facts groups n k output hval
    simp only [get_k_dd_rand_num]
    rw [if_neg (by rw [hval]; simp)]
    by_cases hsmall : n ≤ 1000
    · rw [if_pos hsmall]
      obtain ⟨buf', hdone⟩ := slotLoopSmall_done_of_card groups n (k - 1) 1
        (setUsed (fun _ => false) (xorAt groups 0 % n))
        (output.set 0 (xorAt groups 0 % n))
        (by rw [usedCard_setUsed _ n _ (Nat.mod_lt _ hn) rfl, usedCard_false]
            omega)
      rw [hdone]
    · rw [if_neg hsmall]
      obtain ⟨buf', hdone⟩ := slotLoopBig_done_of_card groups n (fun _ => false)
        (k - 1) 1 (output.set 0 (xorAt groups 0 % n))
        (by rw [List.length_set]; omega)
        (by rw [usedCard_false, List.length_set]; omega)
      rw [hdone]

/-- Claim C10: with an empty whitelist, `get_k_dd_rand_num_with_whitelist`
returns exactly the same status and the same output buffer as
`get_k_dd_rand_num`, on every input: the validation cascades agree, the
probed slot 0 immediately accepts the base offset that the plain function
writes directly, the slot loops coincide, and the loops cannot fail, so the
guarded/unguarded difference is unobservable. -/
theorem c10_empty_whitelist_equiv (groups : List (List Nat)) (n k : Nat)
    (output : List Nat) :
    get_k_dd_rand_num_with_whitelist groups n k [] output
      = get_k_dd_rand_num groups n k output := by
  simp only [get_k_dd_rand_num_with_whitelist, get_k_dd_rand_num]
  have hany : (([] : List Nat).any fun w => decide (w ≥ n)) = false := rfl
  rw [hany, Bool.or_false]
  cases hval : selInvalid groups n k output with
  | true => rw [if_pos rfl, if_pos rfl]
  | false =>
    rw [if_neg Bool.false_ne_true, if_neg Bool.false_ne_true]
    obtain ⟨hg, hn, hk, hnb, hkb, hpow, hkn, hglen, holen, hglens⟩ :=
      selValid_facts groups n k output hval
    simp only [List.foldl_nil]
    by_cases hsmall : n ≤ 1000
    · rw [if_pos hsmall, if_pos hsmall]
      have hprobe := probeAux_free_start (fun _ => false) n
        (xorAt groups 0 % n) rfl hn
      obtain ⟨buf', hdone⟩ := slotLoopSmall_done_of_card groups n (k - 1) 1
        (setUsed (fun _ => false) (xorAt groups 0 % n))
        (output.set 0 (xorAt groups 0 % n))
        (by rw [usedCard_setUsed _ n _ (Nat.mod_lt _ hn) rfl, usedCard_false]
            omega)
      simp only [hprobe, hdone]
    · rw [if_neg hsmall, if_neg hsmall]
      have hex : (fun j => is_whitelisted j ([] : List Nat))
          = (fun _ => false) := rfl
      rw [hex]
      have hprobe := probeAux_free_start (fun _ => false) n
        (xorAt groups 0 % n) rfl hn
      obtain ⟨buf', hdone⟩ := slotLoopBig_done_of_card groups n (fun _ => false)
        (k - 1) 1 (output.set 0 (xorAt groups 0 % n))
        (by rw [List.length_set]; omega)
        (by rw [usedCard_false, List.length_set]; omega)
      simp only [hprobe, hdone]

/-- Claim C3: whenever either k-of-n selection returns `Ok`, the output
buffer holds exactly `k` pairwise-distinct indices, each strictly below `n`;
for the whitelist variant the output is additionally disjoint from the
whitelist. -/
theorem c3_selection_postcondition (groups : List (List Nat)) (n k : Nat)
    (wl output : List Nat) :
    ((get_k_dd_rand_num groups n k output).1 = .ok →
      (get_k_dd_rand_num groups n k output).2.length = k ∧
      (get_k_dd_rand_num groups n k output).2.Nodup ∧
      ∀ x ∈ (get_k_dd_rand_num groups n k output).2, x < n) ∧
    ((get_k_dd_rand_num_with_whitelist groups n k wl output).1 = .ok →
      (get_k_dd_rand_num_with_whitelist groups n k wl output).2.length = k ∧
      (get_k_dd_rand_num_with_whitelist groups n k wl output).2.Nodup ∧
      ∀ x ∈ (get_k_dd_rand_num_with_whitelist groups n k wl output).2,
        x < n ∧ x ∉ wl) := by
  constructor
  · intro hok
    cases hval : selInvalid groups n k output with
    | true =>
      have hres : (get_k_dd_rand_num groups n k output).1
          = .err .InvalidInput := by
        simp only [get_k_dd_rand_num]
        rw [if_pos (by rw [hval])]
      rw [hres] at hok
      exact absurd hok (by simp)
    | false =>
      obtain ⟨hg, hn, hk, hnb, hkb, hpow, hkn, hglen, holen, hglens⟩ :=
        selValid_facts groups n k output hval
      have holen1 : 0 < output.length := by omega
      by_cases hsmall : n ≤ 1000
      · rcases hrun : slotLoopSmall groups n 1 (k - 1)
            (setUsed (fun _ => false) (xorAt groups 0 % n))
            (output.set 0 (xorAt groups 0 % n)) with buf' | buf'
        · have hres : get_k_dd_rand_num groups n k output = (.ok, buf') := by
            simp only [get_k_dd_rand_num]
            rw [if_neg (by rw [hval]; simp), if_pos hsmall, hrun]
          have hspec := slotLoopSmall_done_spec groups n (fun _ => false)
            (k - 1) 1 (setUsed (fun _ => false) (xorAt groups 0 % n))
            (output.set 0 (xorAt groups 0 % n)) buf'
            (by rw [List.length_set]; omega)
            (fun x hx => absurd hx (by simp))
            (by
              rw [take_one_set_zero output _ holen1]
              intro x hx
              have hxo : x = xorAt groups 0 % n := by simpa using hx
              subst hxo
              exact ⟨Nat.mod_lt _ hn, by simp [setUsed], rfl⟩)
            (by rw [take_one_set_zero output _ holen1]; simp)
            hrun
          rw [List.length_set] at hspec
          rw [hres]
          exact ⟨hspec.1.trans holen, hspec.2.1,
            fun x hx => (hspec.2.2 x hx).1⟩
        · have hres : (get_k_dd_rand_num groups n k output).1 = .diverge := by
            simp only [get_k_dd_rand_num]
            rw [if_neg (by rw [hval]; simp), if_pos hsmall, hrun]
          rw [hres] at hok
          exact absurd hok (by simp)
      · rcases hrun : slotLoopBig groups n (fun _ => false) 1 (k - 1)
            (output.set 0 (xorAt groups 0 % n)) with buf' | buf'
        · have hres : get_k_dd_rand_num groups n k output = (.ok, buf') := by
            simp only [get_k_dd_rand_num]
            rw [if_neg (by rw [hval]; simp), if_neg hsmall, hrun]
          have hspec := slotLoopBig_done_spec groups n (fun _ => false)
            (k - 1) 1 (output.set 0 (xorAt groups 0 % n)) buf'
            (by rw [List.length_set]; omega)
            (by
              rw [take_one_set_zero output _ holen1]
              intro x hx
              have hxo : x = xorAt groups 0 % n := by simpa using hx
              subst hxo
              exact ⟨Nat.mod_lt _ hn, rfl⟩)
            (by rw [take_one_set_zero output _ holen1]; simp)
            hrun
          rw [List.length_set] at hspec
          rw [hres]
          exact ⟨hspec.1.trans holen, hspec.2.1,
            fun x hx => (hspec.2.2 x hx).1⟩
        · have hres : (get_k_dd_rand_num groups n k output).1 = .diverge := by
            simp only [get_k_dd_rand_num]
            rw [if_neg (by rw [hval]; simp), if_neg hsmall, hrun]
          rw [hres] at hok
          exact absurd hok (by simp)
  · intro hok
    cases hvalc : (selInvalid groups n k output ||
        wl.any fun w => decide (w ≥ n)) with
    | true =>
      have hres : (get_k_dd_rand_num_with_whitelist groups n k wl output).1
          = .err .InvalidInput := by
        simp only [get_k_dd_rand_num_with_whitelist]
        rw [if_pos (by rw [hvalc])]
      rw [hres] at hok
      exact absurd hok (by simp)
    | false =>
      obtain ⟨hval, hany⟩ := Bool.or_eq_false_iff.mp hvalc
      obtain ⟨hg, hn, hk, hnb, hkb, hpow, hkn, hglen, holen, hglens⟩ :=
        selValid_facts groups n k output hval
      have holen1 : 0 < output.length := by omega
      by_cases hsmall : n ≤ 1000
      · rcases hp : probeAux
            (wl.foldl (fun u w => setUsed u w) (fun _ => false)) n
            (xorAt groups 0 % n) n with _ | off
        · have hres : (get_k_dd_rand_num_with_whitelist
              groups n k wl output).1 = .err .CalculationFailed := by
            simp only [get_k_dd_rand_num_with_whitelist]
            rw [if_neg (by rw [hvalc]; simp), if_pos hsmall, hp]
          rw [hres] at hok
          exact absurd hok (by simp)
        · obtain ⟨hoffn, hofffree⟩ :=
            probeAux_some _ n n _ off (Nat.mod_lt _ hn) hp
          rcases hrun : slotLoopSmall groups n 1 (k - 1)
              (setUsed (wl.foldl (fun u w => setUsed u w) (fun _ => false)) off)
              (output.set 0 off) with buf' | buf'
          · have hres : get_k_dd_rand_num_with_whitelist groups n k wl output
                = (.ok, buf') := by
              simp only [get_k_dd_rand_num_with_whitelist]
              rw [if_neg (by rw [hvalc]; simp), if_pos hsmall]
              simp only [hp]
              rw [hrun]
            have hbase : ∀ x, is_whitelisted x wl = true →
                (wl.foldl (fun u w => setUsed u w) (fun _ => false)) x
                  = true :=
              fun x hx => (foldl_setUsed_eq wl _ x).mpr
                (Or.inl ((is_whitelisted_iff x wl).mp hx))
            have hspec := slotLoopSmall_done_spec groups n
              (fun j => is_whitelisted j wl) (k - 1) 1
              (setUsed (wl.foldl (fun u w => setUsed u w) (fun _ => false)) off)
              (output.set 0 off) buf'
              (by rw [List.length_set]; omega)
              (fun x hx => usedCard_mark_mem _ off x (hbase x hx))
              (by
                rw [take_one_set_zero output _ holen1]
                intro x hx
                have hxo : x = off := by simpa using hx
                subst hxo
                refine ⟨hoffn, by simp [setUsed], ?_⟩
                by_contra hb
                have hb' : is_whitelisted x wl = true := by simpa using hb
                have := hbase x hb'
                rw [hofffree] at this
                cases this)
              (by rw [take_one_set_zero output _ holen1]; simp)
              hrun
            rw [List.length_set] at hspec
            rw [hres]
            refine ⟨hspec.1.trans holen, hspec.2.1, ?_⟩
            intro x hx
            obtain ⟨h1, h2⟩ := hspec.2.2 x hx
            refine ⟨h1, fun hmem => ?_⟩
            have h2b : is_whitelisted x wl = false := h2
            rw [(is_whitelisted_iff x wl).mpr hmem] at h2b
            cases h2b
          · have hres : (get_k_dd_rand_num_with_whitelist
                groups n k wl output).1 = .err .CalculationFailed := by
              simp only [get_k_dd_rand_num_with_whitelist]
              rw [if_neg (by rw [hvalc]; simp), if_pos hsmall]
              simp only [hp]
              rw [hrun]
            rw [hres] at hok
            exact absurd hok (by simp)
      · rcases hp : probeAux (fun j => is_whitelisted j wl) n
            (xorAt groups 0 % n) n with _ | off
        · have hres : (get_k_dd_rand_num_with_whitelist
              groups n k wl output).1 = .err .CalculationFailed := by
            simp only [get_k_dd_rand_num_with_whitelist]
            rw [if_neg (by rw [hvalc]; simp), if_neg hsmall, hp]
          rw [hres] at hok
          exact absurd hok (by simp)
        · obtain ⟨hoffn, hofffree⟩ :=
            probeAux_some _ n n _ off (Nat.mod_lt _ hn) hp
          rcases hrun : slotLoopBig groups n (fun j => is_whitelisted j wl) 1
              (k - 1) (output.set 0 off) with buf' | buf'
          · have hres : get_k_dd_rand_num_with_whitelist groups n k wl output
                = (.ok, buf') := by
              simp only [get_k_dd_rand_num_with_whitelist]
              rw [if_neg (by rw [hvalc]; simp), if_neg hsmall]
              simp only [hp]
              rw [hrun]
            have hspec := slotLoopBig_done_spec groups n
              (fun j => is_whitelisted j wl) (k - 1) 1 (output.set 0 off) buf'
              (by rw [List.length_set]; omega)
              (by
                rw [take_one_set_zero output _ holen1]
                intro x hx
                have hxo : x = off := by simpa using hx
                subst hxo
                exact ⟨hoffn, hofffree⟩)
              (by rw [take_one_set_zero output _ holen1]; simp)
              hrun
            rw [List.length_set] at hspec
            rw [hres]
            refine ⟨hspec.1.trans holen, hspec.2.1, ?_⟩
            intro x hx
            obtain ⟨h1, h2⟩ := hspec.2.2 x hx
            refine ⟨h1, fun hmem => ?_⟩
            have h2b : is_whitelisted x wl = false := h2
            rw [(is_whitelisted_iff x wl).mpr hmem] at h2b
            cases h2b
          · have hres : (get_k_dd_rand_num_with_whitelist
                groups n k wl output).1 = .err .CalculationFailed := by
              simp only [get_k_dd_rand_num_with_whitelist]
              rw [if_neg (by rw [hvalc]; simp), if_neg hsmall]
              simp only [hp]
              rw [hrun]
            rw [hres] at hok
            exact absurd hok (by simp)

/-- Witness for C3: the repository's four-group fixture (`n = 4`, `k = 3`)
and its whitelist-`[0]` variant both succeed with distinct in-range
indices, the latter avoiding index `0`. -/
theorem c3_selection_postcondition_witness :
    ((get_k_dd_rand_num
        [[100, 200, 300], [150, 250, 350], [120, 220, 320], [130, 230, 330]]
        4 3 [0, 0, 0]).2.length = 3 ∧
      (get_k_dd_rand_num
        [[100, 200, 300], [150, 250, 350], [120, 220, 320], [130, 230, 330]]
        4 3 [0, 0, 0]).2.Nodup ∧
      ∀ x ∈ (get_k_dd_rand_num
        [[100, 200, 300], [150, 250, 350], [120, 220, 320], [130, 230, 330]]
        4 3 [0, 0, 0]).2, x < 4) ∧
    ((get_k_dd_rand_num_with_whitelist
        [[100, 200, 300], [150, 250, 350], [120, 220, 320], [130, 230, 330]]
        4 3 [0] [0, 0, 0]).2.length = 3 ∧
      (get_k_dd_rand_num_with_whitelist
        [[100, 200, 300], [150, 250, 350], [120, 220, 320], [130, 230, 330]]
        4 3 [0] [0, 0, 0]).2.Nodup ∧
      ∀ x ∈ (get_k_dd_rand_num_with_whitelist
        [[100, 200, 300], [150, 250, 350], [120, 220, 320], [130, 230, 330]]
        4 3 [0] [0, 0, 0]).2, x < 4 ∧ x ∉ [0]) :=
  ⟨(c3_selection_postcondition
      [[100, 200, 300], [150, 250, 350], [120, 220, 320], [130, 230, 330]]
      4 3 [0] [0, 0, 0]).1 (by decide),
   (c3_selection_postcondition
      [[100, 200, 300], [150, 250, 350], [120, 220, 320], [130, 230, 330]]
      4 3 [0] [0, 0, 0]).2 (by decide)⟩

theorem whitelist_never_diverge (groups : List (List Nat)) (n k : Nat)
    (wl output : List Nat) :
    (get_k_dd_rand_num_with_whitelist groups n k wl output).1
      ≠ .diverge := by
  simp only [get_k_dd_rand_num_with_whitelist]
  repeat' split
  all_goals simp

/-- Claim C4: `get_k_dd_rand_num_with_whitelist` returns
`Err(CalculationFailed)` exactly when, while probing for some output slot,
a full cycle of `n` probes finds no admissible index.  Formally: the `n`
consecutive probes of one slot inspect every residue modulo `n`, so a full
cycle fails exactly when no admissible index remains.  The theorem states
(i) the call never hangs — the failure is an error value; (ii) whenever
`CalculationFailed` is returned, validation had passed and at the failing
slot `i < k` every index below `n` was whitelisted or among the `i`
already-selected entries recorded in the returned buffer; (iii) conversely,
when validation passes and no admissible index exists at all (the whitelist
covers `[0, n)`), the call returns `CalculationFailed`. -/
theorem c4_calculation_failed_iff_exhausted (groups : List (List Nat))
    (n k : Nat) (wl output : List Nat) :
    ((get_k_dd_rand_num_with_whitelist groups n k wl output).1
        ≠ .diverge) ∧
    ((get_k_dd_rand_num_with_whitelist groups n k wl output).1
        = .err .CalculationFailed →
      selInvalid groups n k output = false ∧ (∀ w ∈ wl, w < n) ∧
      ∃ i, i < k ∧ ∀ j, j < n → is_whitelisted j wl = true ∨
        j ∈ (get_k_dd_rand_num_with_whitelist groups n k wl output).2.take i) ∧
    ((selInvalid groups n k output = false ∧ (∀ w ∈ wl, w < n) ∧
        ∀ j, j < n → is_whitelisted j wl = true) →
      (get_k_dd_rand_num_with_whitelist groups n k wl output).1
        = .err .CalculationFailed) := by
  refine ⟨whitelist_never_diverge groups n k wl output, ?_, ?_⟩
  · intro hcf
    cases hvalc : (selInvalid groups n k output ||
        wl.any fun w => decide (w ≥ n)) with
    | true =>
      have hres : (get_k_dd_rand_num_with_whitelist groups n k wl output).1
          = .err .InvalidInput := by
        simp only [get_k_dd_rand_num_with_whitelist]
        rw [if_pos (by rw [hvalc])]
      rw [hres] at hcf
      exact absurd hcf (by simp)
    | false =>
      obtain ⟨hval, hany⟩ := Bool.or_eq_false_iff.mp hvalc
      obtain ⟨hg, hn, hk, hnb, hkb, hpow, hkn, hglen, holen, hglens⟩ :=
        selValid_facts groups n k output hval
      have hwlran : ∀ w ∈ wl, w < n := by
        intro w hw
        have := List.any_eq_false.mp hany w hw
        simp at this
        omega
      refine ⟨hval, hwlran, ?_⟩
      by_cases hsmall : n ≤ 1000
      · rcases hp : probeAux
            (wl.foldl (fun u w => setUsed u w) (fun _ => false)) n
            (xorAt groups 0 % n) n with _ | off
        · refine ⟨0, by omega, ?_⟩
          intro j hj
          left
          have := probeAux_none_all _ n _ (Nat.mod_lt _ hn) hp j hj
          rcases (foldl_setUsed_eq wl _ j).mp this with hm | hm
          · exact (is_whitelisted_iff j wl).mpr hm
          · cases hm
        · obtain ⟨hoffn, hofffree⟩ :=
            probeAux_some _ n n _ off (Nat.mod_lt _ hn) hp
          rcases hrun : slotLoopSmall groups n 1 (k - 1)
              (setUsed (wl.foldl (fun u w => setUsed u w) (fun _ => false)) off)
              (output.set 0 off) with buf' | buf'
          · have hres : (get_k_dd_rand_num_with_whitelist
                groups n k wl output).1 = .ok := by
              simp only [get_k_dd_rand_num_with_whitelist]
              rw [if_neg (by rw [hvalc]; simp), if_pos hsmall]
              simp only [hp]
              rw [hrun]
            rw [hres] at hcf
            exact absurd hcf (by simp)
          · have hres : get_k_dd_rand_num_with_whitelist groups n k wl output
                = (.err .CalculationFailed, buf') := by
              simp only [get_k_dd_rand_num_with_whitelist]
              rw [if_neg (by rw [hvalc]; simp), if_pos hsmall]
              simp only [hp]
              rw [hrun]
            have hinv : ∀ x, setUsed
                (wl.foldl (fun u w => setUsed u w) (fun _ => false)) off x
                  = true →
                is_whitelisted x wl = true ∨ x ∈ (output.set 0 off).take 1 := by
              intro x hx
              unfold setUsed at hx
              by_cases hxo : x = off
              · right
                rw [take_one_set_zero output _ (by omega)]
                simp [hxo]
              · rw [if_neg hxo] at hx
                rcases (foldl_setUsed_eq wl _ x).mp hx with hm | hm
                · exact Or.inl ((is_whitelisted_iff x wl).mpr hm)
                · cases hm
            obtain ⟨iF, h1, h2, h3⟩ := slotLoopSmall_stuck_spec groups n
              (fun j => is_whitelisted j wl) (k - 1) 1
              (setUsed (wl.foldl (fun u w => setUsed u w) (fun _ => false)) off)
              (output.set 0 off) buf'
              (by rw [List.length_set]; omega) hinv hrun
            refine ⟨iF, by omega, ?_⟩
            intro j hj
            rw [hres]
            exact h3 j hj
      · rcases hp : probeAux (fun j => is_whitelisted j wl) n
            (xorAt groups 0 % n) n with _ | off
        · refine ⟨0, by omega, ?_⟩
          intro j hj
          exact Or.inl (probeAux_none_all _ n _ (Nat.mod_lt _ hn) hp j hj)
        · rcases hrun : slotLoopBig groups n (fun j => is_whitelisted j wl) 1
              (k - 1) (output.set 0 off) with buf' | buf'
          · have hres : (get_k_dd_rand_num_with_whitelist
                groups n k wl output).1 = .ok := by
              simp only [get_k_dd_rand_num_with_whitelist]
              rw [if_neg (by rw [hvalc]; simp), if_neg hsmall]
              simp only [hp]
              rw [hrun]
            rw [hres] at hcf
            exact absurd hcf (by simp)
          · have hres : get_k_dd_rand_num_with_whitelist groups n k wl output
                = (.err .CalculationFailed, buf') := by
              simp only [get_k_dd_rand_num_with_whitelist]
              rw [if_neg (by rw [hvalc]; simp), if_neg hsmall]
              simp only [hp]
              rw [hrun]
            obtain ⟨iF, h1, h2, h3⟩ := slotLoopBig_stuck_spec groups n
              (fun j => is_whitelisted j wl) (k - 1) 1
              (output.set 0 off) buf' hrun
            refine ⟨iF, by omega, ?_⟩
            intro j hj
            rw [hres]
            exact h3 j hj
  · rintro ⟨hval, hwlran, hall⟩
    have hany : (wl.any fun w => decide (w ≥ n)) = false := by
      rw [List.any_eq_false]
      intro w hw
      have hlt := hwlran w hw
      simp only [decide_eq_true_eq]
      omega
    have hvalc : (selInvalid groups n k output ||
        wl.any fun w => decide (w ≥ n)) = false := by
      rw [hval, hany]
      rfl
    obtain ⟨hg, hn, hk, hnb, hkb, hpow, hkn, hglen, holen, hglens⟩ :=
      selValid_facts groups n k output hval
    by_cases hsmall : n ≤ 1000
    · have hused : ∀ j, j < n →
          (wl.foldl (fun u w => setUsed u w) (fun _ => false)) j = true := by
        intro j hj
        exact (foldl_setUsed_eq wl _ j).mpr
          (Or.inl ((is_whitelisted_iff j wl).mp (hall j hj)))
      have hp := probeAux_all_none
        (wl.foldl (fun u w => setUsed u w) (fun _ => false)) n hused n
        (xorAt groups 0 % n) (Nat.mod_lt _ hn)
      simp only [get_k_dd_rand_num_with_whitelist]
      rw [if_neg (by rw [hvalc]; simp), if_pos hsmall, hp]
    · have hused : ∀ j, j < n → is_whitelisted j wl = true := hall
      have hp := probeAux_all_none (fun j => is_whitelisted j wl) n hused n
        (xorAt groups 0 % n) (Nat.mod_lt _ hn)
      simp only [get_k_dd_rand_num_with_whitelist]
      rw [if_neg (by rw [hvalc]; simp), if_neg hsmall, hp]

/-- Witness for C4: with `n = 2`, `k = 1` and whitelist `[0, 1]` covering
every index, the call reports `CalculationFailed` after a full probe
cycle. -/
theorem c4_calculation_failed_iff_exhausted_witness :
    (get_k_dd_rand_num_with_whitelist [[5], [9]] 2 1 [0, 1] [7]).1
      = .err .CalculationFailed :=
  (c4_calculation_failed_iff_exhausted [[5], [9]] 2 1 [0, 1] [7]).2.2
    ⟨by decide, by decide, by decide⟩

/-! ### The equal-weight variant really is zero-sum

Supporting development for the C1 analysis: the unchecked wrapping that
breaks the zero-sum closure of the weighted variant cannot fire in the
equal-weight variant, whose population size is the genuine participant
count.  The checked `n * maxV`, `n * n` and numerator bounds confine every
share and every partial value of `sum_others` strictly inside the `i128`
range, so all wraparounds are identities and the written allocation sums to
exactly zero. -/

theorem inI128_of_abs_le {x : Int} (h : |x| ≤ 2 ^ 127 - 1) : inI128 x := by
  rw [abs_le] at h
  constructor
  · unfold i128Min
    linarith [h.1]
  · unfold i128Max
    exact h.2

theorem natAbs_le_of_inI128 {v : Int} (h : inI128 v) : v.natAbs ≤ 2 ^ 127 := by
  obtain ⟨h1, h2⟩ := h
  unfold i128Min at h1
  unfold i128Max at h2
  omega

theorem abs_tdiv_le (v d : Int) (hv : v.natAbs ≤ 2 ^ 127) :
    |v.tdiv d| ≤ ((2 ^ 127 / d.natAbs : Nat) : Int) := by
  rw [Int.abs_eq_natAbs, Int.natAbs_tdiv]
  exact_mod_cast Nat.div_le_div_right hv

theorem sum_set_getD (l : List Int) (i : Nat) (a : Int) (h : i < l.length) :
    (l.set i a).sum = l.sum - l.getD i 0 + a := by
  rw [List.sum_set, if_pos h]
  have h1 : (l.take (i + 1)).sum + (l.drop (i + 1)).sum = l.sum := by
    rw [← List.sum_append, List.take_append_drop]
  have h2 : (l.take (i + 1)).sum = (l.take i).sum + l.getD i 0 := by
    rw [List.take_succ, List.sum_append, List.getElem?_eq_getElem h]
    have : l.getD i 0 = l[i] := by
      rw [List.getD_eq_getElem?_getD, List.getElem?_eq_getElem h]
      rfl
    rw [this]
    simp
  linarith

theorem budget_key (m : Nat) (h2 : 2 ≤ m) (hA : m ≤ 2 ^ 127) :
    (m - 1) * (2 ^ 127 / m + 2 ^ 127 / (m * m)) ≤ 2 ^ 127 - 1 := by
  have h1 : m * (2 ^ 127 / m) ≤ 2 ^ 127 := by
    calc m * (2 ^ 127 / m) = 2 ^ 127 / m * m := by ring
      _ ≤ 2 ^ 127 := Nat.div_mul_le_self _ _
  have h2' : m * (2 ^ 127 / (m * m)) ≤ 2 ^ 127 / m := by
    rw [← Nat.div_div_eq_div_mul]
    calc m * (2 ^ 127 / m / m) = 2 ^ 127 / m / m * m := by ring
      _ ≤ 2 ^ 127 / m := Nat.div_mul_le_self _ _
  have hQ1 : 2 ^ 127 / (m * m) = 0 → 1 ≤ 2 ^ 127 / m :=
    fun _ => (Nat.one_le_div_iff (by omega)).mpr hA
  have hexp : (m - 1) * (2 ^ 127 / m + 2 ^ 127 / (m * m))
        + (2 ^ 127 / m + 2 ^ 127 / (m * m))
      = m * (2 ^ 127 / m) + m * (2 ^ 127 / (m * m)) := by
    have hm : m - 1 + 1 = m := by omega
    calc (m - 1) * (2 ^ 127 / m + 2 ^ 127 / (m * m))
          + (2 ^ 127 / m + 2 ^ 127 / (m * m))
        = (m - 1 + 1) * (2 ^ 127 / m + 2 ^ 127 / (m * m)) := by ring
      _ = m * (2 ^ 127 / m + 2 ^ 127 / (m * m)) := by rw [hm]
      _ = m * (2 ^ 127 / m) + m * (2 ^ 127 / (m * m)) := by ring
  have hP2R : 2 ^ 127 / (m * m) = 0 → m * (2 ^ 127 / (m * m)) = 0 :=
    fun h => by rw [h, Nat.mul_zero]
  generalize hX : (m - 1) * (2 ^ 127 / m + 2 ^ 127 / (m * m)) = X at hexp ⊢
  generalize hP1 : m * (2 ^ 127 / m) = P1 at h1 hexp
  generalize hP2 : m * (2 ^ 127 / (m * m)) = P2 at h2' hexp hP2R
  generalize hQ : 2 ^ 127 / m = Q at h2' hexp hQ1
  generalize hR : 2 ^ 127 / (m * m) = R at hexp hQ1 hP2R
  omega

theorem cmul_eq_some (a b c : Int) (h : cmul a b = some c) :
    c = a * b ∧ inI128 (a * b) := by
  unfold cmul at h
  by_cases hi : inI128 (a * b)
  · rw [if_pos hi] at h
    injection h with h
    exact ⟨h.symm, hi⟩
  · rw [if_neg hi] at h
    cases h

theorem csub_eq_some (a b c : Int) (h : csub a b = some c) :
    c = a - b ∧ inI128 (a - b) := by
  unfold csub at h
  by_cases hi : inI128 (a - b)
  · rw [if_pos hi] at h
    injection h with h
    exact ⟨h.symm, hi⟩
  · rw [if_neg hi] at h
    cases h

theorem maxScan_snd_lt (values : List Int) (hne : values ≠ []) :
    (maxScan values).2 < values.length := by
  obtain ⟨v, vs, rfl⟩ := List.exists_cons_of_ne_nil hne
  have hscan : maxScan (v :: vs) = maxScanAux (v :: vs) 0 v 0 := rfl
  rcases maxScanAux_spec (v :: vs) 0 v 0 with ⟨heq, _⟩ | ⟨t, ht, heq, _⟩
  · rw [hscan, heq]
    simp
  · rw [hscan, heq]
    simpa using ht

theorem equalShares_exact (n delta B : Int) (mi : Nat) (hn : 2 ≤ n)
    (hB0 : 0 ≤ B)
    (hB : ∀ v, inI128 v → |v.tdiv n + delta| ≤ B) :
    ∀ (vs : List Int) (i : Nat) (buf : List Int) (s : Int)
      (buf' : List Int) (sF : Int),
      (∀ v ∈ vs, inI128 v) →
      buf.length = i + vs.length →
      |s| + ((vs.length : Int) -
        (if i ≤ mi ∧ mi < i + vs.length then 1 else 0)) * B ≤ 2 ^ 127 - 1 →
      equalShares n delta mi vs i buf s = .done buf' sF →
      |sF| ≤ 2 ^ 127 - 1 ∧
      ∃ w, buf' = buf.take i ++ w ∧ w.length = vs.length ∧
        w.sum = sF - s ∧
        (i ≤ mi → mi < i + vs.length → w.getD (mi - i) 0 = 0) := by
  intro vs
  induction vs with
  | nil =>
    intro i buf s buf' sF _ hlen hbud hrun
    have hinj : buf = buf' ∧ s = sF := by simpa [equalShares] using hrun
    obtain ⟨h1, h2⟩ := hinj
    subst h1
    subst h2
    simp only [List.length_nil, Nat.cast_zero] at hbud
    have hind : (if i ≤ mi ∧ mi < i + 0 then (1 : Int) else 0) = 0 := by
      rw [if_neg]
      omega
    rw [hind] at hbud
    norm_num at hbud
    refine ⟨hbud, [], ?_, by simp, by simp, fun ha hb => rfl⟩
    rw [List.append_nil]
    rw [List.length_nil] at hlen
    exact (List.take_of_length_le (by omega)).symm
  | cons v vs ih =>
    intro i buf s buf' sF hv hlen hbud hrun
    have hlen' : buf.length = i + vs.length + 1 := by
      rw [List.length_cons] at hlen
      omega
    simp only [equalShares] at hrun
    by_cases hmi : i = mi
    · rw [if_pos hmi] at hrun
      have hind1 : (if i ≤ mi ∧ mi < i + (v :: vs).length then (1 : Int)
          else 0) = 1 := by
        rw [if_pos]
        refine ⟨by omega, ?_⟩
        rw [List.length_cons]
        omega
      have hind2 : (if i + 1 ≤ mi ∧ mi < i + 1 + vs.length then (1 : Int)
          else 0) = 0 := by
        rw [if_neg]
        omega
      have hbud2 : |s| + ((vs.length : Int) -
          (if i + 1 ≤ mi ∧ mi < i + 1 + vs.length then 1 else 0)) * B
          ≤ 2 ^ 127 - 1 := by
        rw [hind2]
        rw [hind1] at hbud
        simp only [List.length_cons, Nat.cast_succ] at hbud
        have hre : ((vs.length : Int) + 1 - 1) * B
            = ((vs.length : Int) - 0) * B := by ring
        linarith [hbud, hre.symm.le, hre.le]
      obtain ⟨hsF, w', hw1, hw2, hw3, hw4⟩ := ih (i + 1) (buf.set i 0) s
        buf' sF (fun x hx => hv x (List.mem_cons_of_mem _ hx))
        (by rw [List.length_set]; omega) hbud2 hrun
      refine ⟨hsF, 0 :: w', ?_, by simp [hw2], by simpa using hw3, ?_⟩
      · rw [hw1, take_set_succ buf i 0 (by omega)]
        simp
      · intro h1 h2
        have hz : mi - i = 0 := by omega
        rw [hz]
        rfl
    · rw [if_neg hmi] at hrun
      have hdiv : divP v n = some (v.tdiv n) := by
        unfold divP
        rw [if_neg]
        rintro (hc | ⟨_, hc⟩) <;> omega
      rw [hdiv] at hrun
      have hvI : inI128 v := hv v (List.mem_cons_self v vs)
      have hshare : |v.tdiv n + delta| ≤ B := hB v hvI
      have hind01 : (0 : Int) ≤ (vs.length : Int) -
          (if i + 1 ≤ mi ∧ mi < i + 1 + vs.length then 1 else 0) := by
        by_cases hc : i + 1 ≤ mi ∧ mi < i + 1 + vs.length
        · rw [if_pos hc]
          have : 1 ≤ vs.length := by omega
          have hcast : (1 : Int) ≤ (vs.length : Int) := by exact_mod_cast this
          linarith
        · rw [if_neg hc]
          simp
      have hindrel : (if i ≤ mi ∧ mi < i + (v :: vs).length then (1 : Int)
            else 0)
          = (if i + 1 ≤ mi ∧ mi < i + 1 + vs.length then (1 : Int) else 0) := by
        simp only [List.length_cons]
        by_cases hc : i + 1 ≤ mi ∧ mi < i + 1 + vs.length
        · rw [if_pos hc, if_pos (by omega)]
        · rw [if_neg hc, if_neg (by omega)]
      have hBle : |s| + B + ((vs.length : Int) -
          (if i + 1 ≤ mi ∧ mi < i + 1 + vs.length then 1 else 0)) * B
          ≤ 2 ^ 127 - 1 := by
        rw [hindrel] at hbud
        simp only [List.length_cons, Nat.cast_succ] at hbud
        have hre : ((vs.length : Int) + 1 -
            (if i + 1 ≤ mi ∧ mi < i + 1 + vs.length then (1 : Int) else 0)) * B
            = ((vs.length : Int) -
              (if i + 1 ≤ mi ∧ mi < i + 1 + vs.length then (1 : Int) else 0))
                * B + B := by ring
        linarith [hbud, hre.le, hre.symm.le]
      have hprodnn : (0 : Int) ≤ ((vs.length : Int) -
          (if i + 1 ≤ mi ∧ mi < i + 1 + vs.length then 1 else 0)) * B :=
        mul_nonneg hind01 hB0
      have hshI : inI128 (v.tdiv n + delta) :=
        inI128_of_abs_le (by linarith [abs_nonneg s])
      have hwshare : wrap (v.tdiv n + delta) = v.tdiv n + delta :=
        wrap_eq_self hshI
      have hs2I : inI128 (s + (v.tdiv n + delta)) :=
        inI128_of_abs_le (by
          have htri := abs_add s (v.tdiv n + delta)
          linarith)
      have hws2 : wrap (s + wrap (v.tdiv n + delta))
          = s + (v.tdiv n + delta) := by
        rw [hwshare]
        exact wrap_eq_self hs2I
      obtain ⟨hsF, w', hw1, hw2, hw3, hw4⟩ := ih (i + 1)
        (buf.set i (wrap (v.tdiv n + delta)))
        (wrap (s + wrap (v.tdiv n + delta))) buf' sF
        (fun x hx => hv x (List.mem_cons_of_mem _ hx))
        (by rw [List.length_set]; omega)
        (by
          rw [hws2]
          have htri := abs_add s (v.tdiv n + delta)
          linarith)
        hrun
      refine ⟨hsF, (v.tdiv n + delta) :: w', ?_, by simp [hw2], ?_, ?_⟩
      · rw [hw1, take_set_succ buf i _ (by omega), hwshare]
        simp
      · rw [List.sum_cons, hw3, hws2]
        ring
      · intro h1 h2
        have hsplit : mi - i = (mi - (i + 1)) + 1 := by omega
        rw [hsplit]
        have hgd : ((v.tdiv n + delta) :: w').getD (mi - (i + 1) + 1) 0
            = w'.getD (mi - (i + 1)) 0 := rfl
        rw [hgd]
        exact hw4 (by omega) (by simp at h2; omega)


/-- On genuine `i128` inputs, an `Ok` return of the equal-weight fair
division carries an allocation summing to exactly zero: the checked
`n * n` multiplication bounds the population, so every share and every
partial value of `sum_others` stays strictly inside the `i128` range and
no wraparound fires. -/
theorem equal_weights_zero_sum (values output res : List Int)
    (hvals : ∀ v ∈ values, inI128 v)
    (hrun : calculate_fair_division_equal_weights values output
      = (.ok, res)) :
    res.sum = 0 := by
  simp only [calculate_fair_division_equal_weights] at hrun
  by_cases hg1 : values = [] ∨ output.length ≠ values.length
  · rw [if_pos hg1] at hrun
    simp at hrun
  rw [if_neg hg1] at hrun
  push_neg at hg1
  obtain ⟨hne, hlen⟩ := hg1
  by_cases hg2 : values.length < 2
  · rw [if_pos hg2] at hrun
    simp at hrun
  rw [if_neg hg2] at hrun
  have hm2 : 2 ≤ values.length := by omega
  have hmilt : (maxScan values).2 < values.length := maxScan_snd_lt values hne
  split at hrun
  · rename_i nMaxV nSq hc1 hc2
    split at hrun
    · rename_i numer hc3
      split at hrun
      · rename_i delta hc4
        split at hrun
        · rename_i buf s hc5
          obtain ⟨hnSqv, hSqI⟩ := cmul_eq_some _ _ _ hc2
          obtain ⟨hnumv, hnumI⟩ := csub_eq_some _ _ _ hc3
          rw [← hnumv] at hnumI
          have hdelta : delta = numer.tdiv nSq := by
            unfold divP at hc4
            by_cases hz : nSq = 0 ∨ (numer = i128Min ∧ nSq = -1)
            · rw [if_pos hz] at hc4
              cases hc4
            · rw [if_neg hz] at hc4
              injection hc4 with h
              exact h.symm
          subst hnSqv
          have hmmNat : values.length * values.length ≤ 2 ^ 127 - 1 := by
            obtain ⟨_, h2⟩ := hSqI
            unfold i128Max at h2
            have h3 : ((values.length * values.length : Nat) : Int)
                ≤ 2 ^ 127 - 1 := by
              push_cast
              exact h2
            omega
          have hmle : values.length ≤ 2 ^ 127 := by
            have h := Nat.le_mul_of_pos_left values.length
              (show 0 < values.length from by omega)
            have h2 := hmmNat
            generalize h3 : values.length * values.length = P at h h2
            omega
          have hB0 : (0 : Int) ≤ ((2 ^ 127 / values.length : Nat) : Int) +
              ((2 ^ 127 / (values.length * values.length) : Nat) : Int) := by
            positivity
          have hBv : ∀ v, inI128 v →
              |v.tdiv (values.length : Int) + delta| ≤
                ((2 ^ 127 / values.length : Nat) : Int) +
                ((2 ^ 127 / (values.length * values.length) : Nat) : Int) := by
            intro v hv
            have h1 := abs_tdiv_le v (values.length : Int)
              (natAbs_le_of_inI128 hv)
            rw [Int.natAbs_ofNat] at h1
            have h2 := abs_tdiv_le numer
              ((values.length : Int) * (values.length : Int))
              (natAbs_le_of_inI128 hnumI)
            rw [Int.natAbs_mul, Int.natAbs_ofNat] at h2
            rw [hdelta]
            calc |v.tdiv (values.length : Int) +
                numer.tdiv ((values.length : Int) * (values.length : Int))|
                ≤ |v.tdiv (values.length : Int)| +
                  |numer.tdiv ((values.length : Int) * (values.length : Int))| :=
                abs_add _ _
              _ ≤ _ := add_le_add h1 h2
          have hkey := budget_key values.length hm2 hmle
          have hkeyI : ((values.length : Int) - 1) *
              (((2 ^ 127 / values.length : Nat) : Int) +
                ((2 ^ 127 / (values.length * values.length) : Nat) : Int))
              ≤ 2 ^ 127 - 1 := by
            have h1 : (1 : Nat) ≤ values.length := by omega
            have hcast := Int.ofNat_le.mpr hkey
            push_cast [Nat.cast_sub h1,
              Nat.cast_sub (show (1 : Nat) ≤ 2 ^ 127 from by norm_num)]
              at hcast
            exact hcast
          have hn : (2 : Int) ≤ (values.length : Int) := by exact_mod_cast hm2
          have hmain := equalShares_exact (values.length : Int) delta
            (((2 ^ 127 / values.length : Nat) : Int) +
              ((2 ^ 127 / (values.length * values.length) : Nat) : Int))
            (maxScan values).2 hn hB0 hBv values 0 output 0 buf s hvals
            (by omega)
            (by
              rw [if_pos (show 0 ≤ (maxScan values).2 ∧
                  (maxScan values).2 < 0 + values.length from
                ⟨Nat.zero_le _, by omega⟩)]
              rw [abs_zero]
              linarith [hkeyI])
            hc5
          obtain ⟨hsF, w, hw1, hw2, hw3, hw4⟩ := hmain
          rw [List.take_zero, List.nil_append] at hw1
          subst hw1
          have hgd : buf.getD (maxScan values).2 0 = 0 := by
            have h := hw4 (Nat.zero_le _) (by omega)
            rwa [Nat.sub_zero] at h
          have hmiw : (maxScan values).2 < buf.length := by omega
          have hwr : wrap (-s) = -s :=
            wrap_eq_self (inI128_of_abs_le (by rw [abs_neg]; exact hsF))
          simp only [Prod.mk.injEq] at hrun
          obtain ⟨-, hres⟩ := hrun
          rw [← hres, hwr, sum_set_getD buf (maxScan values).2 (-s) hmiw,
            hgd, hw3]
          ring
        · simp at hrun
      · simp at hrun
    · simp at hrun
  · simp at hrun

end DD
